import Mathlib

/-! Processor container: the group table and its three scheduling operations.

A shallow embedding of `src/kernel_module/src/ioctl.c`.

* Records of type `struct task_info` live in a heap of blocks addressed by natural numbers;
  a pointer is an `Option Nat` (`none` is `NULL`).
* `kfree` marks a block as freed and leaves its bytes in place; a later load or store through
  a stale pointer acts on those bytes.
* `kmalloc` hands out a block that is not in use: a block freed earlier, which then is in use
  again under its old address, or a new block behind the heap.  Which one is the choice of
  the allocator, a parameter `alloc` of every operation that allocates.
* An operation returns `none` when the C code dereferences `NULL` or an address that was never
  allocated, indexes `containers` out of bounds, reads the uninitialised `counter`, or loops
  for ever.
* The mutex, `wake_up_process` and `set_current_state; schedule` calls are recorded, in program
  order, in the trace of the result.
-/

namespace ProcessorContainer

/-! ## Data model -/

/-- Kernel task descriptor `struct task_struct`; the only field `ioctl.c` reads is `pid`. -/
structure task_struct where
  pid : Int
deriving DecidableEq, Repr

/-- Member record `struct task_info` (ioctl.c lines 93-98). -/
structure task_info where
  cid : Int
  tid : Int
  next : Option Nat
  taskinlist : task_struct
deriving DecidableEq, Repr

/-- Group entry `struct container_info` (ioctl.c lines 100-104). -/
structure container_info where
  head : Option Nat
  foot : Option Nat
  cur : Option Nat
deriving DecidableEq, Repr

/-- Modelled from the spec: `struct processor_container_cmd` is declared in
`processor_container.h`, which is not among the sources; the payload is the single field
`cid`, an unsigned 64-bit integer. -/
structure processor_container_cmd where
  cid : Nat
deriving DecidableEq, Repr

/-- A heap block: the bytes of one `task_info` and whether `kfree` has been called on it. -/
structure Block where
  val : task_info
  freed : Bool
deriving DecidableEq, Repr

/-- The global state: the table `containers[10000]` and the heap of member records. -/
structure KState where
  containers : Nat → Option container_info
  heap : List Block

/-- Calls into the mutex and the scheduler, as they appear in the source. -/
inductive Event where
  | lock
  | unlock
  | wake (t : task_struct)
  | sleep
deriving DecidableEq, Repr

/-- What a completed call leaves behind: new state, return value, trace of scheduler calls. -/
structure Result where
  state : KState
  ret : Int
  trace : List Event

/-- Number of slots of the table `containers` (ioctl.c line 106). -/
def NCONT : Nat := 10000

/-- The state at module load: every slot `NULL`, nothing allocated. -/
def init : KState := { containers := fun _ => none, heap := [] }

/-! ## Memory primitives -/

/-- The assignment `long long int x = temp->cid` from an unsigned 64-bit field. -/
def toLongLong (c : Nat) : Int :=
  if c % 2 ^ 64 < 2 ^ 63 then ((c % 2 ^ 64 : Nat) : Int) else ((c % 2 ^ 64 : Nat) : Int) - 2 ^ 64

/-- Index of `containers[x]`, when it lies inside the array. -/
def slot (x : Int) : Option Nat :=
  if 0 ≤ x ∧ x < (NCONT : Int) then some x.toNat else none

/-- Read through a `task_info` pointer. -/
def load (h : List Block) (p : Option Nat) : Option task_info :=
  match p with
  | none => none
  | some a => (h[a]?).map Block.val

/-- Write through a `task_info` pointer, replacing the record by `f` of it. -/
def modify (h : List Block) (p : Option Nat) (f : task_info → task_info) :
    Option (List Block) :=
  match p with
  | none => none
  | some a =>
    match h[a]? with
    | none => none
    | some b => some (h.set a { b with val := f b.val })

/-- The assignment `p->next = v`. -/
def storeNext (h : List Block) (p : Option Nat) (v : Option Nat) : Option (List Block) :=
  modify h p (fun t => { t with next := v })

/-- The call `kfree(p)`: the block is marked freed, its bytes stay. -/
def kfree (h : List Block) (p : Option Nat) : Option (List Block) :=
  match p with
  | none => some h
  | some a =>
    match h[a]? with
    | none => none
    | some b => some (h.set a { b with freed := true })

/-- Contents of a block fresh from `kmalloc`, before any field is assigned. -/
def junk : Block := { val := { cid := 0, tid := 0, next := none, taskinlist := ⟨0⟩ }, freed := false }

/-- The call `kmalloc(sizeof(struct task_info), GFP_KERNEL)`: address and new heap.  The
allocator's choice `alloc h` names a freed block, which is handed out again with its bytes as
they are; when it names no freed block, a new block is taken behind the heap. -/
def kmalloc (alloc : List Block → Nat) (h : List Block) : Nat × List Block :=
  match h[alloc h]? with
  | some b =>
    if b.freed then (alloc h, h.set (alloc h) { b with freed := false })
    else (h.length, h ++ [junk])
  | none => (h.length, h ++ [junk])

/-- An allocator that never hands a freed block out again. -/
def allocFresh : List Block → Nat := fun h => h.length

/-- An allocator that hands out the first freed block of the heap, when there is one. -/
def allocReuse : List Block → Nat := fun h => h.findIdx (fun b => b.freed)

/-! ## Leave: `processor_container_delete` (ioctl.c lines 119-193) -/

/-- The `while (del != containers[x]->head)` loop of lines 169-180.  The result is the heap
and, when a node was unlinked, the new value of `cur`.  The first argument bounds the number
of iterations; the heap holds finitely many blocks and the loop does not change it before
it exits, so more iterations than blocks means that the loop never exits. -/
def deleteLoop (pid : Int) (head : Option Nat) :
    Nat → List Block → Option Nat → Option Nat → Option (List Block × Option (Option Nat))
  | 0, _, _, _ => none
  | fuel + 1, h, prev, del =>
    if del = head then some (h, none)
    else
      match load h del with
      | none => none
      | some d =>
        if d.tid = pid then
          match storeNext h prev d.next with
          | none => none
          | some h1 =>
            match kfree h1 del with
            | none => none
            | some h2 =>
              match load h2 prev with
              | none => none
              | some pr => some (h2, some pr.next)
        else
          match load h prev with
          | none => none
          | some pr => deleteLoop pid head fuel h pr.next d.next

/-- The `if (prev->tid == currenttask->pid)` block of lines 157-167: unlink the head. -/
def deleteHead (h : List Block) (c : container_info) (prev : Option Nat) :
    Option (List Block × container_info) :=
  match load h prev with
  | none => none
  | some pr0 =>
    let c1 : container_info := { c with head := pr0.next }
    match storeNext h c1.foot c1.head with
    | none => none
    | some h1 =>
      match load h1 prev with
      | none => none
      | some pr1 =>
        let c2 : container_info := { c1 with cur := pr1.next }
        match kfree h1 prev with
        | none => none
        | some h2 => some (h2, c2)

/-- Leave. -/
def processor_container_delete (k : KState) (current : task_struct)
    (cmd : processor_container_cmd) : Option Result :=
  let x := toLongLong cmd.cid
  match slot x with
  | none => none
  | some i =>
    match k.containers i with
    | none => none
    | some c =>
      match c.head with
      | none => some ⟨k, 0, [Event.lock, Event.unlock]⟩
      | some _ =>
        match load k.heap c.head with
        | none => none
        | some hd =>
          if hd.next = c.head then
            match kfree k.heap c.head with
            | none => none
            | some h1 =>
              some ⟨{ containers := Function.update k.containers i (some { c with head := none }),
                      heap := h1 }, 0, [Event.lock, Event.unlock]⟩
          else
            let del := hd.next
            let prev := c.head
            match (if hd.tid = current.pid then deleteHead k.heap c prev
                   else some (k.heap, c)) with
            | none => none
            | some (h1, c1) =>
              match deleteLoop current.pid c1.head (h1.length + 1) h1 prev del with
              | none => none
              | some (h2, ocur) =>
                let c2 : container_info :=
                  match ocur with
                  | none => c1
                  | some q => { c1 with cur := q }
                match load h2 c2.cur with
                | none => none
                | some w =>
                  some ⟨{ containers := Function.update k.containers i (some c2), heap := h2 },
                        0, [Event.lock, Event.wake w.taskinlist, Event.unlock]⟩

/-! ## Join: `processor_container_create` (ioctl.c lines 204-261) -/

/-- The three assignments `task->cid = x; task->tid = currenttask->pid;
task->taskinlist = currenttask`. -/
def fillTask (x : Int) (current : task_struct) (t : task_info) : task_info :=
  { t with cid := x, tid := current.pid, taskinlist := current }

/-- Join.  The first argument is the allocator behind `kmalloc`. -/
def processor_container_create (alloc : List Block → Nat) (k : KState) (current : task_struct)
    (cmd : processor_container_cmd) : Option Result :=
  let task := (kmalloc alloc k.heap).1
  let h0 := (kmalloc alloc k.heap).2
  let x := toLongLong cmd.cid
  match slot x with
  | none => none
  | some i =>
    match k.containers i with
    | none =>
      match modify h0 (some task) (fillTask x current) with
      | none => none
      | some h1 =>
        let c : container_info := { head := some task, foot := some task, cur := none }
        match storeNext h1 c.foot c.head with
        | none => none
        | some h2 =>
          let c1 : container_info := { c with cur := c.head }
          some ⟨{ containers := Function.update k.containers i (some c1), heap := h2 },
                0, [Event.lock, Event.unlock]⟩
    | some c =>
      match modify h0 (some task) (fillTask x current) with
      | none => none
      | some h1 =>
        match storeNext h1 c.foot (some task) with
        | none => none
        | some h2 =>
          let c1 : container_info := { c with foot := some task }
          match storeNext h2 c1.foot c1.head with
          | none => none
          | some h3 =>
            some ⟨{ containers := Function.update k.containers i (some c1), heap := h3 },
                  0, [Event.lock, Event.unlock, Event.sleep]⟩

/-! ## Yield: `processor_container_switch` (ioctl.c lines 269-317) -/

/-- The `for (i = 0; i < 10000; i++)` scan of lines 284-292, entered at index `i` with `n`
slots left.  `none` when a `cur` pointer cannot be read, and when the loop ends without
`break`, which leaves `counter` uninitialised. -/
def scan (k : KState) (pid : Int) : Nat → Nat → Option Nat
  | 0, _ => none
  | n + 1, i =>
    match k.containers i with
    | none => scan k pid n (i + 1)
    | some c =>
      match load k.heap c.cur with
      | none => none
      | some t => if t.tid = pid then some i else scan k pid n (i + 1)

/-- Yield.  The argument `cmd` is copied and its `cid` stored in `x`, which is never read. -/
def processor_container_switch (k : KState) (current : task_struct)
    (_cmd : processor_container_cmd) : Option Result :=
  match scan k current.pid NCONT 0 with
  | none => none
  | some counter =>
    match k.containers counter with
    | none => none
    | some c =>
      match load k.heap c.cur with
      | none => none
      | some t =>
        if c.cur = t.next then some ⟨k, 0, [Event.lock, Event.unlock]⟩
        else
          let c1 : container_info := { c with cur := t.next }
          match load k.heap c1.cur with
          | none => none
          | some w =>
            some ⟨{ k with containers := Function.update k.containers counter (some c1) },
                  0, [Event.lock, Event.wake w.taskinlist, Event.unlock, Event.sleep]⟩

/-! ## Rings -/

/-- The block at address `a` is allocated and has not been freed. -/
def isLive (h : List Block) (a : Nat) : Bool :=
  match h[a]? with
  | some b => !b.freed
  | none => false

/-- The `next` field stored at address `a`. -/
def nextOf (h : List Block) (a : Nat) : Option Nat :=
  match h[a]? with
  | some b => b.val.next
  | none => none

/-- Every node of the list is live and its `next` field points to the node after it in the
list; the `next` field of the last node points to `e`. -/
def links (h : List Block) (e : Nat) : List Nat → Prop
  | [] => True
  | a :: rest => isLive h a = true ∧ nextOf h a = some (rest.headD e) ∧ links h e rest

/-- Decision procedure for `links`. -/
instance links.decide (h : List Block) (e : Nat) : (ps : List Nat) → Decidable (links h e ps)
  | [] => isTrue trivial
  | a :: rest =>
    have : Decidable (links h e rest) := links.decide h e rest
    (inferInstance :
      Decidable (isLive h a = true ∧ nextOf h a = some (rest.headD e) ∧ links h e rest))

/-- Following `next` from `head` visits exactly the nodes `ps`, in this order, each once, all
of them live, and the `next` field of the last one points back to `head`. -/
def isCycle (h : List Block) (head : Option Nat) (ps : List Nat) : Prop :=
  ps ≠ [] ∧ ps.Nodup ∧ head = ps.head? ∧ links h (ps.headD 0) ps

/-- A well-formed ring with members `ps` in head order: the traversal from `head` is `ps`,
`foot` is its last node, and `foot->next` is `head`. -/
def isRing (h : List Block) (c : container_info) (ps : List Nat) : Prop :=
  isCycle h c.head ps ∧ c.foot = ps.getLast?

/-- Decision procedure for `isCycle`. -/
instance isCycle.decide (h : List Block) (head : Option Nat) (ps : List Nat) :
    Decidable (isCycle h head ps) :=
  (inferInstance : Decidable (ps ≠ [] ∧ ps.Nodup ∧ head = ps.head? ∧ links h (ps.headD 0) ps))

/-- Decision procedure for `isRing`. -/
instance isRing.decide (h : List Block) (c : container_info) (ps : List Nat) :
    Decidable (isRing h c ps) :=
  (inferInstance : Decidable (isCycle h c.head ps ∧ c.foot = ps.getLast?))

/-- The identity fields of the record at `a`: group id, member id and thread handle. -/
def ident (h : List Block) (a : Nat) : Option (Int × Int × task_struct) :=
  (load h (some a)).map (fun t => (t.cid, t.tid, t.taskinlist))

/-- The thread was suspended by the call: the trace contains `schedule()`. -/
def Result.suspended (r : Result) : Bool := decide (Event.sleep ∈ r.trace)

/-- The threads woken by the call, in order. -/
def Result.woken (r : Result) : List task_struct :=
  r.trace.filterMap (fun e => match e with
    | Event.wake t => some t
    | _ => none)

/-- The scan of Yield for thread `pid` passes over slot `j`: the slot is `NULL`, or the
record its `cur` points to can be read and carries another tid. -/
def passesOver (k : KState) (pid : Int) (j : Nat) : Bool :=
  match k.containers j with
  | none => true
  | some c =>
    match load k.heap c.cur with
    | none => false
    | some t => decide (t.tid ≠ pid)

/-- The cyclic successor of `p` in the ring whose head order is `pre ++ p :: post`. -/
def cyclicSucc (pre : List Nat) (p : Nat) (post : List Nat) : Nat :=
  (post ++ pre ++ [p]).headD p

/-- The heap after `r->next = v; kfree(p)`, where `br` and `bp` are the blocks at `r` and
`p` before the two statements. -/
def unlinked (h : List Block) (r : Nat) (br : Block) (v : Option Nat) (p : Nat) (bp : Block) :
    List Block :=
  (h.set r { br with val := { br.val with next := v } }).set p { bp with freed := true }

/-! ## Sequences of calls -/

/-- One call into the module by thread `t` with payload `cid`. -/
inductive Call where
  | join (t : task_struct) (cid : Nat)
  | leave (t : task_struct) (cid : Nat)
  | yield (t : task_struct) (cid : Nat)
deriving DecidableEq, Repr

/-- Perform one call, with allocator `alloc`. -/
def step (alloc : List Block → Nat) (k : KState) : Call → Option Result
  | Call.join t g => processor_container_create alloc k t ⟨g⟩
  | Call.leave t g => processor_container_delete k t ⟨g⟩
  | Call.yield t g => processor_container_switch k t ⟨g⟩

/-- Perform a sequence of calls, each on the state the previous one left. -/
def run (alloc : List Block → Nat) (k : KState) : List Call → Option KState
  | [] => some k
  | c :: rest =>
    match step alloc k c with
    | none => none
    | some r => run alloc r.state rest

/-- States the module can be in after some sequence of completed calls since load, under some
allocator. -/
def Reachable (k : KState) : Prop := ∃ alloc calls, run alloc init calls = some k

/-- The thread handle stored in the record that `cur` of group `g` points to. -/
def curThread (g : Nat) (k : KState) : Option task_struct :=
  match k.containers g with
  | none => none
  | some c => (load k.heap c.cur).map task_info.taskinlist

/-- Yield called by the thread that is current in group `g` at that moment. -/
def yieldCurrent (g : Nat) (k : KState) : Option KState :=
  match curThread g k with
  | none => none
  | some t => (processor_container_switch k t ⟨g⟩).map Result.state

/-- The call `yieldCurrent g`, `n` times in a row. -/
def yields (g : Nat) : Nat → KState → Option KState
  | 0, k => some k
  | n + 1, k =>
    match yieldCurrent g k with
    | none => none
    | some k1 => yields g n k1

/-- The threads `ts` join group `g`, in this order. -/
def joins (g : Nat) (ts : List task_struct) : List Call := ts.map (fun t => Call.join t g)

/-- The pointer is `NULL` or designates one of the addresses `S`. -/
def ptrIn (S : List Nat) : Option Nat → Bool
  | none => true
  | some a => decide (a ∈ S)

/-- The addresses `S` are closed under `next`: the `next` field of every block at an address
of `S` is `NULL` or an address of `S`. -/
def Closed (h : List Block) (S : List Nat) : Prop := ∀ a ∈ S, ptrIn S (nextOf h a) = true

/-- Decision procedure for `Closed`. -/
instance Closed.decide (h : List Block) (S : List Nat) : Decidable (Closed h S) :=
  (inferInstance : Decidable (∀ a ∈ S, ptrIn S (nextOf h a) = true))

/-- The scan of Yield, called by any of the threads `ts`, passes over every slot below
`g`: none of the threads is recorded as current in a lower-numbered group. -/
def Clear (g : Nat) (ts : List task_struct) (k : KState) : Prop :=
  ∀ j, j < g → ∀ t ∈ ts, passesOver k t.pid j = true

/-- Decision procedure for `Clear`. -/
instance Clear.decide (g : Nat) (ts : List task_struct) (k : KState) : Decidable (Clear g ts k) :=
  (inferInstance : Decidable (∀ j, j < g → ∀ t ∈ ts, passesOver k t.pid j = true))

/-- The slot `j` is `NULL`, or its `cur` pointer designates a record in use. -/
def curInUse (k : KState) (j : Nat) : Bool :=
  match k.containers j with
  | none => true
  | some c =>
    match c.cur with
    | none => false
    | some a => isLive k.heap a

/-- No entry below `g` holds a `cur` pointer to a freed record: every lower-numbered group
that was ever used still has its current member. -/
def CurLive (g : Nat) (k : KState) : Prop := ∀ j, j < g → curInUse k j = true

/-- Decision procedure for `CurLive`. -/
instance CurLive.decide (g : Nat) (k : KState) : Decidable (CurLive g k) :=
  (inferInstance : Decidable (∀ j, j < g → curInUse k j = true))

/-- The ring of group `g` is well formed, its members are, in head order, the records of the
threads `ts`, and cur is member number `i`. -/
def Joined (g : Nat) (ts : List task_struct) (i : Nat) (k : KState) : Prop :=
  ∃ c ps, k.containers g = some c ∧ isRing k.heap c ps ∧ c.cur = ps[i]? ∧ i < ps.length ∧
    ps.map (ident k.heap) = ts.map (fun t => some ((g : Int), t.pid, t))

/-- The threads that are current in group `g` after Yield number `n + 1`, `n + 2`, ...,
`n + len`, counted from state `k`, each Yield called by the thread current at that moment. -/
def turns (g : Nat) (k : KState) (n len : Nat) : List (Option task_struct) :=
  (List.range len).map (fun j => (yields g (n + 1 + j) k).bind (curThread g))

/-! ## Concrete threads and states -/

/-- A thread with pid 101. -/
def threadA : task_struct := ⟨101⟩

/-- A thread with pid 102. -/
def threadB : task_struct := ⟨102⟩

/-- A thread with pid 103. -/
def threadC : task_struct := ⟨103⟩

/-- Threads A and B have joined group 0, in this order. -/
def stPair : KState := (run allocFresh init [Call.join threadA 0, Call.join threadB 0]).getD init

/-- Thread A has joined group 0. -/
def stSolo : KState := (run allocFresh init [Call.join threadA 0]).getD init

/-- Threads A and B have joined group 0 and A has yielded: the ring is [A, B], cur is B. -/
def stPairB : KState :=
  (run allocFresh init [Call.join threadA 0, Call.join threadB 0, Call.yield threadA 0]).getD init

/-- Thread A has joined group 0 and left it again as its sole member. -/
def stEmptied : KState := (run allocFresh init [Call.join threadA 0, Call.leave threadA 0]).getD init

/-- Eight calls, each made by the thread that is current at that moment (a Join on a
non-empty group apart): A, B and C join group 0, A and B yield, C leaves, A leaves,
B yields. -/
def dangleCalls : List Call :=
  [Call.join threadA 0, Call.join threadB 0, Call.join threadC 0, Call.yield threadA 0,
   Call.yield threadB 0, Call.leave threadC 0, Call.leave threadA 0, Call.yield threadB 0]

/-- The state after `dangleCalls`. -/
def stDangling : KState := (run allocFresh init dangleCalls).getD init

/-- Threads A, B and C have joined group 0, in this order. -/
def stTriple : KState :=
  (run allocFresh init (joins 0 [threadA, threadB, threadC])).getD init

/-! ## The dispatcher: `processor_container_ioctl` (ioctl.c lines 323-337) -/

/-- Modelled from the spec: the request codes `PCONTAINER_IOCTL_CSWITCH`,
`PCONTAINER_IOCTL_CREATE` and `PCONTAINER_IOCTL_DELETE` are macros of
`processor_container.h`, which is not among the sources; the three request kinds CREATE,
DELETE and SWITCH of the control interface are taken as parameters. -/
structure Opcodes where
  cswitch : Nat
  create : Nat
  delete : Nat
deriving DecidableEq, Repr

/-- The three `case` labels of the `switch` statement are pairwise different, as C requires
of the labels of one `switch`. -/
def Opcodes.distinct (ops : Opcodes) : Prop :=
  ops.cswitch ≠ ops.create ∧ ops.cswitch ≠ ops.delete ∧ ops.create ≠ ops.delete

/-- Decision procedure for `Opcodes.distinct`. -/
instance Opcodes.distinct.decide (ops : Opcodes) : Decidable ops.distinct :=
  (inferInstance : Decidable
    (ops.cswitch ≠ ops.create ∧ ops.cswitch ≠ ops.delete ∧ ops.create ≠ ops.delete))

/-- The errno value `ENOTTY` of the Linux kernel headers ("inappropriate ioctl"). -/
def ENOTTY : Int := 25

/-- The dispatcher.  An opcode that matches no `case` returns `-ENOTTY` without calling into
the mutex, the scheduler or the table. -/
def processor_container_ioctl (alloc : List Block → Nat) (ops : Opcodes) (k : KState)
    (current : task_struct) (cmd : Nat) (arg : processor_container_cmd) : Option Result :=
  if cmd = ops.cswitch then processor_container_switch k current arg
  else if cmd = ops.create then processor_container_create alloc k current arg
  else if cmd = ops.delete then processor_container_delete k current arg
  else some ⟨k, -ENOTTY, []⟩

/-! ## The lock discipline of a trace -/

/-- Where a call stands with respect to the mutex. -/
inductive LockPhase where
  | before
  | holding
  | released
deriving DecidableEq, Repr

/-- Check a trace from a given phase: the mutex is taken once, as the first event, and given
back once; `wake_up_process` is called only while it is held; `schedule` is called only
after it has been given back; the call ends with the mutex given back. -/
def lockCheck : LockPhase → List Event → Bool
  | LockPhase.released, [] => true
  | _, [] => false
  | LockPhase.before, Event.lock :: rest => lockCheck LockPhase.holding rest
  | LockPhase.before, _ :: _ => false
  | LockPhase.holding, Event.wake _ :: rest => lockCheck LockPhase.holding rest
  | LockPhase.holding, Event.unlock :: rest => lockCheck LockPhase.released rest
  | LockPhase.holding, _ :: _ => false
  | LockPhase.released, Event.sleep :: rest => lockCheck LockPhase.released rest
  | LockPhase.released, _ :: _ => false

/-- The trace of a call keeps the lock discipline. -/
def wellLocked (tr : List Event) : Bool := lockCheck LockPhase.before tr

/-! ## More concrete states -/

/-- Opcodes 2, 0 and 1 for SWITCH, CREATE and DELETE. -/
def opsExample : Opcodes := ⟨2, 0, 1⟩

/-- Threads A and B join group 0, A yields, B (current, and the tail) leaves, then thread C
joins group 0. -/
def lateJoinCalls : List Call :=
  [Call.join threadA 0, Call.join threadB 0, Call.yield threadA 0, Call.leave threadB 0,
   Call.join threadC 0]

/-- The state after `lateJoinCalls`. -/
def stLateJoin : KState := (run allocFresh init lateJoinCalls).getD init

/-- Thread A joins group 0 and leaves it as its sole member; then A and B join group 1. -/
def shadowCalls : List Call :=
  [Call.join threadA 0, Call.leave threadA 0, Call.join threadA 1, Call.join threadB 1]

/-- The state after `shadowCalls`. -/
def stShadow : KState := (run allocFresh init shadowCalls).getD init

/-- Thread C has joined group 0 and left it again as its sole member. -/
def stEmptiedByC : KState :=
  (run allocReuse init [Call.join threadC 0, Call.leave threadC 0]).getD init

/-- Thread C joins group 0 and leaves it as its sole member; then threads A and B join the
unused group 1. -/
def reuseFairCalls : List Call :=
  [Call.join threadC 0, Call.leave threadC 0, Call.join threadA 1, Call.join threadB 1]

/-- The state after `reuseFairCalls` when the allocator hands freed blocks out again: the
record of A lies in the block that held the record of C. -/
def stReuseFair : KState := (run allocReuse init reuseFairCalls).getD init

/-- Thread A joins group 0, leaves it as its sole member and joins group 1. -/
def reuseFrameCalls : List Call :=
  [Call.join threadA 0, Call.leave threadA 0, Call.join threadA 1]

/-- The state after `reuseFrameCalls` when the allocator hands freed blocks out again: the
record of A in group 1 lies in the block that held its record in group 0. -/
def stReuseFrame : KState := (run allocReuse init reuseFrameCalls).getD init

/-! ## Theorems: basic facts about the memory primitives -/


theorem toLongLong_of_lt (g : Nat) (hg : g < NCONT) : toLongLong g = (g : Int) := by
  have h1 : g % 2 ^ 64 = g := Nat.mod_eq_of_lt (by unfold NCONT at hg; omega)
  have h2 : g < 2 ^ 63 := by unfold NCONT at hg; omega
  unfold toLongLong
  rw [h1, if_pos h2]

theorem slot_ofNat (g : Nat) (hg : g < NCONT) : slot (g : Int) = some g := by
  unfold slot
  have : (0:Int) ≤ (g:Int) ∧ (g:Int) < (NCONT : Int) := ⟨by omega, by exact_mod_cast hg⟩
  rw [if_pos this]
  simp

theorem modify_some {h : List Block} {a : Nat} {b : Block} (f : task_info → task_info)
    (hb : h[a]? = some b) : modify h (some a) f = some (h.set a { b with val := f b.val }) := by
  simp [modify, hb]

theorem storeNext_some {h : List Block} {a : Nat} {b : Block} (v : Option Nat)
    (hb : h[a]? = some b) :
    storeNext h (some a) v = some (h.set a { b with val := { b.val with next := v } }) := by
  simp [storeNext, modify, hb]

theorem kfree_some {h : List Block} {a : Nat} {b : Block} (hb : h[a]? = some b) :
    kfree h (some a) = some (h.set a { b with freed := true }) := by
  simp [kfree, hb]

theorem load_some {h : List Block} {a : Nat} {b : Block} (hb : h[a]? = some b) :
    load h (some a) = some b.val := by
  simp [load, hb]

theorem lt_of_getElem?_eq_some {h : List Block} {a : Nat} {b : Block} (hb : h[a]? = some b) :
    a < h.length := by
  rcases List.getElem?_eq_some.1 hb with ⟨hl, _⟩
  exact hl

theorem isLive_iff {h : List Block} {a : Nat} :
    isLive h a = true ↔ ∃ b, h[a]? = some b ∧ b.freed = false := by
  unfold isLive
  cases hb : h[a]? with
  | none => simp
  | some b => simp

theorem lt_of_isLive {h : List Block} {a : Nat} (hl : isLive h a = true) : a < h.length := by
  rcases isLive_iff.1 hl with ⟨b, hb, _⟩
  exact lt_of_getElem?_eq_some hb

theorem nextOf_eq {h : List Block} {a : Nat} {b : Block} (hb : h[a]? = some b) :
    nextOf h a = b.val.next := by
  simp [nextOf, hb]

theorem links_congr {h h2 : List Block} {e : Nat} {ps : List Nat}
    (hag : ∀ a ∈ ps, h2[a]? = h[a]?) (hl : links h e ps) : links h2 e ps := by
  induction ps with
  | nil => trivial
  | cons a rest ih =>
    obtain ⟨h1, h3, h4⟩ := hl
    have ha : h2[a]? = h[a]? := hag a (List.mem_cons_self _ _)
    refine ⟨?_, ?_, ih (fun b hb => hag b (List.mem_cons_of_mem _ hb)) h4⟩
    · simpa [isLive, ha] using h1
    · simpa [nextOf, ha] using h3

theorem links_cons {h : List Block} {e a : Nat} {rest : List Nat} :
    links h e (a :: rest) ↔
      isLive h a = true ∧ nextOf h a = some (rest.headD e) ∧ links h e rest := Iff.rfl

theorem links_append {h : List Block} {e : Nat} {l1 l2 : List Nat} :
    links h e (l1 ++ l2) ↔ links h (l2.headD e) l1 ∧ links h e l2 := by
  induction l1 with
  | nil => simp [links]
  | cons a rest ih =>
    have hh : (rest ++ l2).headD e = rest.headD (l2.headD e) := by
      cases rest <;> simp
    show (isLive h a = true ∧ nextOf h a = some ((rest ++ l2).headD e) ∧
        links h e (rest ++ l2)) ↔
      ((isLive h a = true ∧ nextOf h a = some (rest.headD (l2.headD e)) ∧
        links h (l2.headD e) rest) ∧ links h e l2)
    rw [ih, hh]
    tauto

theorem links_live {h : List Block} {e : Nat} {ps : List Nat} (hl : links h e ps) :
    ∀ a ∈ ps, isLive h a = true := by
  induction ps with
  | nil => simp
  | cons a rest ih =>
    intro b hb
    rcases List.mem_cons.1 hb with rfl | hb
    · exact hl.1
    · exact ih hl.2.2 b hb


/-! ## Join -/

/-- The allocator hands out either a new block behind the heap or a freed block of the
heap. -/
theorem kmalloc_cases (alloc : List Block → Nat) (h : List Block) :
    kmalloc alloc h = (h.length, h ++ [junk]) ∨
      ∃ b, h[alloc h]? = some b ∧ b.freed = true ∧
        kmalloc alloc h = (alloc h, h.set (alloc h) { b with freed := false }) := by
  unfold kmalloc
  cases hb : h[alloc h]? with
  | none => exact Or.inl rfl
  | some b =>
    by_cases hf : b.freed = true
    · exact Or.inr ⟨b, rfl, hf, by simp [hf]⟩
    · exact Or.inl (by simp [hf])

/-- The block handed out is allocated and in use in the new heap. -/
theorem kmalloc_block (alloc : List Block → Nat) (h : List Block) :
    ∃ b0, (kmalloc alloc h).2[(kmalloc alloc h).1]? = some b0 ∧ b0.freed = false := by
  rcases kmalloc_cases alloc h with hk | ⟨b, hb, _, hk⟩
  · rw [hk]
    exact ⟨junk, List.getElem?_concat_length _ _, rfl⟩
  · rw [hk]
    exact ⟨_, List.getElem?_set_self (lt_of_getElem?_eq_some hb), rfl⟩

/-- The block handed out was not in use before. -/
theorem kmalloc_not_live (alloc : List Block → Nat) (h : List Block) :
    isLive h (kmalloc alloc h).1 = false := by
  rcases kmalloc_cases alloc h with hk | ⟨b, hb, hf, hk⟩
  · rw [hk]
    simp [isLive]
  · rw [hk]
    simp [isLive, hb, hf]

/-- Every other block is as it was. -/
theorem kmalloc_other (alloc : List Block → Nat) (h : List Block) {x : Nat}
    (hx : x ≠ (kmalloc alloc h).1) : (kmalloc alloc h).2[x]? = h[x]? := by
  rcases kmalloc_cases alloc h with hk | ⟨b, hb, _, hk⟩
  · rw [hk] at hx ⊢
    by_cases hxl : x < h.length
    · exact List.getElem?_append_left hxl
    · rw [List.getElem?_eq_none (by simp; omega), List.getElem?_eq_none (by omega)]
  · rw [hk] at hx ⊢
    exact List.getElem?_set_ne (Ne.symm hx)

/-- An allocator that never hands a freed block out again takes the block behind the
heap. -/
theorem kmalloc_allocFresh (h : List Block) : kmalloc allocFresh h = (h.length, h ++ [junk]) := by
  simp [kmalloc, allocFresh]

/-- Join on a `NULL` slot, as one equation: the block handed out becomes the record. -/
theorem create_unused_eq (alloc : List Block → Nat) (k : KState) (current : task_struct)
    (g : Nat) (hg : g < NCONT) (hk : k.containers g = none) :
    processor_container_create alloc k current ⟨g⟩ = some
      ⟨{ containers := Function.update k.containers g
            (some ⟨some (kmalloc alloc k.heap).1, some (kmalloc alloc k.heap).1,
              some (kmalloc alloc k.heap).1⟩),
         heap := (kmalloc alloc k.heap).2.set (kmalloc alloc k.heap).1
            ⟨⟨(g : Int), current.pid, some (kmalloc alloc k.heap).1, current⟩, false⟩ },
       0, [Event.lock, Event.unlock]⟩ := by
  obtain ⟨b0, hb0, hf0⟩ := kmalloc_block alloc k.heap
  have hlt := lt_of_getElem?_eq_some hb0
  simp only [processor_container_create, toLongLong_of_lt g hg, slot_ofNat g hg, hk]
  simp [modify, storeNext, fillTask, hb0, hf0, hlt]

/-- C1. Join on a group identifier `g` whose table slot is `NULL`, whatever block the
allocator hands out: the call completes, the entry for `g` has head = foot = cur = the address
`a` of that block, which was not in use before; the record at `a` is in use and carries the
group id `g`, the caller's pid and thread handle, and its `next` field points to itself; every
other block and every other table entry is untouched; the trace holds no `schedule()` (the
caller is not suspended) and the return value is 0. -/
theorem create_on_unused_slot (alloc : List Block → Nat) (k : KState)
    (current : task_struct) (g : Nat) (hg : g < NCONT) (hk : k.containers g = none) :
    ∃ r a, processor_container_create alloc k current ⟨g⟩ = some r ∧
      a = (kmalloc alloc k.heap).1 ∧ isLive k.heap a = false ∧
      r.state.containers g = some ⟨some a, some a, some a⟩ ∧
      r.state.heap[a]? = some ⟨⟨(g : Int), current.pid, some a, current⟩, false⟩ ∧
      (∀ x, x ≠ a → r.state.heap[x]? = k.heap[x]?) ∧
      (∀ j, j ≠ g → r.state.containers j = k.containers j) ∧
      r.suspended = false ∧ r.woken = [] ∧ r.trace = [Event.lock, Event.unlock] ∧
      r.ret = 0 := by
  obtain ⟨b0, hb0, _⟩ := kmalloc_block alloc k.heap
  refine ⟨_, _, create_unused_eq alloc k current g hg hk, rfl, kmalloc_not_live alloc k.heap,
    Function.update_same _ _ _, List.getElem?_set_self (lt_of_getElem?_eq_some hb0), ?_, ?_,
    by simp [Result.suspended], by simp [Result.woken], rfl, rfl⟩
  · intro x hx
    show ((kmalloc alloc k.heap).2.set _ _)[x]? = _
    rw [List.getElem?_set_ne (Ne.symm hx)]
    exact kmalloc_other alloc k.heap hx
  · intro j hj
    exact Function.update_noteq hj _ _

/-- Join on an existing entry whose `foot` designates an allocated block other than the one
handed out: the call completes, and the new heap is described block by block. -/
theorem create_existing_spec (alloc : List Block → Nat) (k : KState) (current : task_struct)
    (g : Nat) (hg : g < NCONT) (c : container_info) (hk : k.containers g = some c)
    (f : Nat) (bf : Block) (hf : c.foot = some f) (hbf : k.heap[f]? = some bf)
    (hfa : f ≠ (kmalloc alloc k.heap).1) :
    ∃ r, processor_container_create alloc k current ⟨g⟩ = some r ∧
      r.state.containers = Function.update k.containers g
        (some { c with foot := some (kmalloc alloc k.heap).1 }) ∧
      r.ret = 0 ∧ r.trace = [Event.lock, Event.unlock, Event.sleep] ∧
      r.state.heap[(kmalloc alloc k.heap).1]? =
        some ⟨⟨(g : Int), current.pid, c.head, current⟩, false⟩ ∧
      r.state.heap[f]? =
        some { bf with val := { bf.val with next := some (kmalloc alloc k.heap).1 } } ∧
      ∀ x, x ≠ (kmalloc alloc k.heap).1 → x ≠ f → r.state.heap[x]? = k.heap[x]? := by
  obtain ⟨b0, hb0, hf0⟩ := kmalloc_block alloc k.heap
  have hlt := lt_of_getElem?_eq_some hb0
  have hbf0 : (kmalloc alloc k.heap).2[f]? = some bf := by
    rw [kmalloc_other alloc k.heap hfa]; exact hbf
  have hflt := lt_of_getElem?_eq_some hbf0
  have hother := fun x (hx : x ≠ (kmalloc alloc k.heap).1) => kmalloc_other alloc k.heap hx
  generalize ha : (kmalloc alloc k.heap).1 = a at *
  generalize hh : (kmalloc alloc k.heap).2 = h0 at *
  have e1 : modify h0 (some a) (fillTask (g : Int) current)
      = some (h0.set a { b0 with val := fillTask (g : Int) current b0.val }) := by
    simp [modify, hb0]
  have e2 : storeNext (h0.set a { b0 with val := fillTask (g : Int) current b0.val })
      (some f) (some a)
      = some ((h0.set a { b0 with val := fillTask (g : Int) current b0.val }).set f
          { bf with val := { bf.val with next := some a } }) := by
    simp [storeNext, modify, List.getElem?_set_ne (Ne.symm hfa), hbf0]
  have e3 : storeNext ((h0.set a { b0 with val := fillTask (g : Int) current b0.val }).set f
          { bf with val := { bf.val with next := some a } }) (some a) c.head
      = some (((h0.set a { b0 with val := fillTask (g : Int) current b0.val }).set f
          { bf with val := { bf.val with next := some a } }).set a
            ⟨⟨(g : Int), current.pid, c.head, current⟩, false⟩) := by
    simp [storeNext, modify, List.getElem?_set_ne hfa, List.getElem?_set_self hlt, fillTask,
      hf0]
  have hrun : processor_container_create alloc k current ⟨g⟩ = some
      ⟨⟨Function.update k.containers g (some { c with foot := some a }),
        ((h0.set a { b0 with val := fillTask (g : Int) current b0.val }).set f
          { bf with val := { bf.val with next := some a } }).set a
            ⟨⟨(g : Int), current.pid, c.head, current⟩, false⟩⟩,
       0, [Event.lock, Event.unlock, Event.sleep]⟩ := by
    simp only [processor_container_create, toLongLong_of_lt g hg, slot_ofNat g hg, hk, ha, hh,
      e1, hf, e2, e3]
  refine ⟨_, hrun, rfl, rfl, rfl, ?_, ?_, ?_⟩
  · exact List.getElem?_set_self (by simpa using hlt)
  · show ((List.set _ f _).set a _)[f]? = _
    rw [List.getElem?_set_ne (Ne.symm hfa), List.getElem?_set_self (by simpa using hflt)]
  · intro x hxa hxf
    show ((List.set _ f _).set a _)[x]? = _
    rw [List.getElem?_set_ne (Ne.symm hxa), List.getElem?_set_ne (Ne.symm hxf),
      List.getElem?_set_ne (Ne.symm hxa)]
    exact hother x hxa


theorem head?_eq_some_headD {ps : List Nat} (hne : ps ≠ []) : ps.head? = some (ps.headD 0) := by
  cases ps with
  | nil => exact absurd rfl hne
  | cons a rest => rfl

/-- Join on a well-formed ring, whatever block the allocator hands out: the facts of C2,
the new table, and what becomes of the blocks that were in use. -/
theorem create_ring_spec (alloc : List Block → Nat) (k : KState) (current : task_struct)
    (g : Nat) (hg : g < NCONT) (c : container_info) (hk : k.containers g = some c)
    (ps : List Nat) (hr : isRing k.heap c ps) :
    ∃ r, processor_container_create alloc k current ⟨g⟩ = some r ∧
      isLive k.heap (kmalloc alloc k.heap).1 = false ∧
      r.state.containers = Function.update k.containers g
        (some ⟨c.head, some (kmalloc alloc k.heap).1, c.cur⟩) ∧
      isRing r.state.heap ⟨c.head, some (kmalloc alloc k.heap).1, c.cur⟩
        (ps ++ [(kmalloc alloc k.heap).1]) ∧
      load r.state.heap (some (kmalloc alloc k.heap).1)
        = some ⟨(g : Int), current.pid, c.head, current⟩ ∧
      isLive r.state.heap (kmalloc alloc k.heap).1 = true ∧
      (∀ p ∈ ps, ident r.state.heap p = ident k.heap p) ∧
      r.trace = [Event.lock, Event.unlock, Event.sleep] ∧ r.ret = 0 ∧
      (∀ (x : Nat) (b : Block), k.heap[x]? = some b → b.freed = false →
        ∃ b2, r.state.heap[x]? = some b2 ∧ b2.freed = false ∧ b2.val.tid = b.val.tid) := by
  have hnl := kmalloc_not_live alloc k.heap
  obtain ⟨⟨hne, hnd, hhead, hlinks⟩, hfoot⟩ := hr
  rcases List.eq_nil_or_concat ps with hnil | ⟨l, f, hps⟩
  · exact absurd hnil hne
  rw [List.concat_eq_append] at hps
  subst hps
  rw [List.getLast?_concat] at hfoot
  obtain ⟨hl1, hlf, hnf, _⟩ := links_append.1 hlinks
  obtain ⟨bf, hbf, hfr⟩ := isLive_iff.1 hlf
  have hna : ∀ p ∈ l ++ [f], p ≠ (kmalloc alloc k.heap).1 := by
    intro p hp hpa
    have := links_live hlinks p hp
    rw [hpa, hnl] at this
    cases this
  have hfa : f ≠ (kmalloc alloc k.heap).1 := hna f (by simp)
  have hnf2 : f ∉ l := by
    intro hin
    have := List.nodup_append.1 hnd
    exact this.2.2 hin (List.mem_singleton_self f)
  have hhd : c.head = some ((l ++ [f]).headD 0) := by rw [hhead]; exact head?_eq_some_headD hne
  obtain ⟨r, hrun, hcont, hret, htrace, hnew, hfnew, hother⟩ :=
    create_existing_spec alloc k current g hg c hk f bf hfoot hbf hfa
  generalize (kmalloc alloc k.heap).1 = a at *
  refine ⟨r, hrun, hnl, hcont, ?_, load_some hnew, ?_, ?_, htrace, hret, ?_⟩
  · refine ⟨⟨by simp, ?_, ?_, ?_⟩, by simp⟩
    · rw [List.nodup_append]
      refine ⟨hnd, List.nodup_singleton _, ?_⟩
      intro p hp hb
      rw [List.mem_singleton] at hb
      exact hna p hp hb
    · show c.head = ((l ++ [f]) ++ [a]).head?
      rw [List.head?_append, ← hhead, hhd]
      rfl
    · have hd2 : ((l ++ [f]) ++ [a]).headD 0 = (l ++ [f]).headD 0 := by
        cases l <;> simp
      show links _ (((l ++ [f]) ++ [a]).headD 0) ((l ++ [f]) ++ [a])
      rw [hd2, links_append, links_append]
      refine ⟨⟨?_, ?_, ?_, trivial⟩, ?_, ?_, trivial⟩
      · refine links_congr ?_ hl1
        intro p hp
        refine hother p (hna p (List.mem_append_left _ hp)) ?_
        rintro rfl
        exact hnf2 hp
      · rw [isLive_iff]
        exact ⟨_, hfnew, hfr⟩
      · rw [nextOf_eq hfnew]
        rfl
      · rw [isLive_iff]
        exact ⟨_, hnew, rfl⟩
      · rw [nextOf_eq hnew]
        exact hhd
  · rw [isLive_iff]
    exact ⟨_, hnew, rfl⟩
  · intro p hp
    unfold ident
    by_cases hpf : p = f
    · subst hpf
      rw [load_some hfnew, load_some hbf]
      rfl
    · simp only [load]
      rw [hother p (hna p hp) hpf]
  · intro x b hb hbfr
    have hxa : x ≠ a := by
      rintro rfl
      simp [isLive, hb, hbfr] at hnl
    by_cases hxf : x = f
    · subst hxf
      rw [hbf] at hb
      cases hb
      exact ⟨_, hfnew, hbfr, rfl⟩
    · exact ⟨b, by rw [hother x hxa hxf]; exact hb, hbfr, rfl⟩

/-- C2. Join on a group whose ring is well formed with members `ps` in head order, whatever
block the allocator hands out: the call completes; the record of the caller is at the address
`a` of that block, which was not in use before, and carries the caller's pid, the group id
and the caller's thread handle; the ring is again well formed and its traversal from head is
`ps` followed by the new record, so the new record is the tail and its `next` field is the
head; head and cur are unchanged and so is the identity of every old member; the trace is
lock, unlock, schedule (the caller is suspended after the lock is released); the return value
is 0. -/
theorem create_on_ring (alloc : List Block → Nat) (k : KState) (current : task_struct)
    (g : Nat) (hg : g < NCONT) (c : container_info) (hk : k.containers g = some c)
    (ps : List Nat) (hr : isRing k.heap c ps) :
    ∃ r a, processor_container_create alloc k current ⟨g⟩ = some r ∧
      a = (kmalloc alloc k.heap).1 ∧ isLive k.heap a = false ∧
      r.state.containers g = some ⟨c.head, some a, c.cur⟩ ∧
      isRing r.state.heap ⟨c.head, some a, c.cur⟩ (ps ++ [a]) ∧
      load r.state.heap (some a) = some ⟨(g : Int), current.pid, c.head, current⟩ ∧
      isLive r.state.heap a = true ∧
      (∀ p ∈ ps, ident r.state.heap p = ident k.heap p) ∧
      r.trace = [Event.lock, Event.unlock, Event.sleep] ∧ r.suspended = true ∧
      r.ret = 0 := by
  obtain ⟨r, hrun, hnl, hcont, hring, hload, hlive, hid, htrace, hret, _⟩ :=
    create_ring_spec alloc k current g hg c hk ps hr
  refine ⟨r, _, hrun, rfl, hnl, ?_, hring, hload, hlive, hid, htrace, ?_, hret⟩
  · rw [hcont]
    exact Function.update_same _ _ _
  · simp [Result.suspended, htrace]

/-! ## Yield -/

theorem scan_finds (k : KState) (pid : Int) (g : Nat) (c : container_info) (t : task_info)
    (hc : k.containers g = some c) (ht : load k.heap c.cur = some t) (htid : t.tid = pid) :
    ∀ n i, i ≤ g → g < i + n → (∀ j, i ≤ j → j < g → passesOver k pid j = true) →
      scan k pid n i = some g := by
  intro n
  induction n with
  | zero => intro i h1 h2; omega
  | succ n ih =>
    intro i h1 h2 hp
    by_cases hig : i = g
    · subst hig
      simp [scan, hc, ht, htid]
    · have hlt : i < g := by omega
      have hpi := hp i (le_refl _) hlt
      have hrec := ih (i + 1) (by omega) (by omega) (fun j hj1 hj2 => hp j (by omega) hj2)
      unfold passesOver at hpi
      unfold scan
      cases hci : k.containers i with
      | none => simpa using hrec
      | some ci =>
        simp only [hci] at hpi ⊢
        cases hl : load k.heap ci.cur with
        | none => simp [hl] at hpi
        | some ti =>
          simp only [hl, decide_eq_true_eq] at hpi ⊢
          simp only [hpi, if_false]
          exact hrec

theorem links_next_mid {h : List Block} {e : Nat} {pre post : List Nat} {p : Nat}
    (hl : links h e (pre ++ p :: post)) : nextOf h p = some (post.headD e) := by
  obtain ⟨_, _, hn, _⟩ := links_append.1 hl
  exact hn

theorem ring_next {h : List Block} {head : Option Nat} {pre post : List Nat} {p : Nat}
    (hc : isCycle h head (pre ++ p :: post)) :
    nextOf h p = some (cyclicSucc pre p post) := by
  obtain ⟨_, _, _, hl⟩ := hc
  rw [links_next_mid hl]
  unfold cyclicSucc
  cases post <;> cases pre <;> simp

theorem cyclicSucc_ne {pre post : List Nat} {p : Nat} (hnd : (pre ++ p :: post).Nodup)
    (hlen : 2 ≤ (pre ++ p :: post).length) : cyclicSucc pre p post ≠ p := by
  unfold cyclicSucc
  cases post with
  | cons q post =>
    simp only [List.cons_append, List.headD_cons]
    rintro rfl
    have := (List.nodup_append.1 hnd).2.1
    simp at this
  | nil =>
    cases pre with
    | nil => simp at hlen
    | cons q pre =>
      simp only [List.nil_append, List.cons_append, List.headD_cons]
      rintro rfl
      simp at hnd

theorem cyclicSucc_mem (pre post : List Nat) (p : Nat) :
    cyclicSucc pre p post ∈ pre ++ p :: post := by
  unfold cyclicSucc
  cases post <;> cases pre <;> simp

/-- Yield when the scan selects slot `g`, the traversal from the head of `g` is the cycle
`pre ++ p :: post` of at least two records, and `cur` is `p`: as one equation.  The field
`foot` is not read. -/
theorem switch_ring_eq (k : KState) (current : task_struct) (cmd : processor_container_cmd)
    (g : Nat) (hg : g < NCONT) (c : container_info) (hk : k.containers g = some c)
    (pre post : List Nat) (p : Nat) (hcyc : isCycle k.heap c.head (pre ++ p :: post))
    (hlen : 2 ≤ (pre ++ p :: post).length) (hcur : c.cur = some p)
    (htid : (load k.heap (some p)).map task_info.tid = some current.pid)
    (hscan : ∀ j, j < g → passesOver k current.pid j = true) :
    ∃ w, load k.heap (some (cyclicSucc pre p post)) = some w ∧
      processor_container_switch k current cmd = some
        ⟨{ k with containers :=
              Function.update k.containers g (some { c with cur := some (cyclicSucc pre p post) }) },
         0, [Event.lock, Event.wake w.taskinlist, Event.unlock, Event.sleep]⟩ := by
  have hnext := ring_next hcyc
  obtain ⟨_, hnd, _, hl⟩ := hcyc
  have hne := cyclicSucc_ne hnd hlen
  obtain ⟨b, hb, _⟩ := isLive_iff.1 (links_live hl p (by simp))
  obtain ⟨bq, hbq, _⟩ := isLive_iff.1 (links_live hl _ (cyclicSucc_mem pre post p))
  rw [nextOf_eq hb] at hnext
  rw [load_some hb] at htid
  simp only [Option.map_some', Option.some.injEq] at htid
  have hload : load k.heap c.cur = some b.val := by rw [hcur]; exact load_some hb
  have hs : scan k current.pid NCONT 0 = some g :=
    scan_finds k current.pid g c b.val hk hload htid NCONT 0 (Nat.zero_le _) (by omega)
      (fun j _ hj => hscan j hj)
  refine ⟨bq.val, load_some hbq, ?_⟩
  simp only [processor_container_switch, hs, hk, hcur, load_some hb, hnext]
  rw [if_neg (by simpa using Ne.symm hne)]
  simp [load_some hbq]

/-- Yield when the scan selects slot `g` and the traversal from the head of `g` is the single
record `p`.  The field `foot` is not read. -/
theorem switch_single_eq (k : KState) (current : task_struct) (cmd : processor_container_cmd)
    (g : Nat) (hg : g < NCONT) (c : container_info) (hk : k.containers g = some c)
    (p : Nat) (hcyc : isCycle k.heap c.head [p]) (hcur : c.cur = some p)
    (htid : (load k.heap (some p)).map task_info.tid = some current.pid)
    (hscan : ∀ j, j < g → passesOver k current.pid j = true) :
    processor_container_switch k current cmd = some ⟨k, 0, [Event.lock, Event.unlock]⟩ := by
  have hnext : nextOf k.heap p = some (cyclicSucc [] p []) := @ring_next _ _ [] [] p hcyc
  obtain ⟨_, _, _, hl⟩ := hcyc
  obtain ⟨b, hb, _⟩ := isLive_iff.1 (links_live hl p (by simp))
  rw [nextOf_eq hb] at hnext
  rw [load_some hb] at htid
  simp only [Option.map_some', Option.some.injEq] at htid
  have hload : load k.heap c.cur = some b.val := by rw [hcur]; exact load_some hb
  have hs : scan k current.pid NCONT 0 = some g :=
    scan_finds k current.pid g c b.val hk hload htid NCONT 0 (Nat.zero_le _) (by omega)
      (fun j _ hj => hscan j hj)
  simp only [processor_container_switch, hs, hk, hcur, load_some hb, hnext]
  simp [cyclicSucc]

/-! ## Leave -/


theorem headD_append_cons (mid post : List Nat) (p e : Nat) :
    (mid ++ p :: post).headD e = (mid ++ [p]).headD 0 := by
  cases mid <;> simp

theorem length_le_of_nodup_lt {l : List Nat} {n : Nat} (hnd : l.Nodup)
    (hlt : ∀ a ∈ l, a < n) : l.length ≤ n := by
  have hsub : l ⊆ List.range n := fun a ha => List.mem_range.2 (hlt a ha)
  have := (List.subperm_of_subset hnd hsub).length_le
  simpa using this

/-- The unlinking loop of Leave: `prev` is `u`, the nodes `mid` that follow it carry other
tids and are not the head, and the node `p` after them carries the caller's tid. -/
theorem deleteLoop_unlinks (pid : Int) (head : Option Nat) (h : List Block) (e : Nat)
    (post : List Nat) (p : Nat) (bp : Block) (hbp : h[p]? = some bp)
    (hptid : bp.val.tid = pid) :
    ∀ (mid : List Nat) (u fuel : Nat), mid.length + 1 ≤ fuel →
      links h e (u :: mid ++ p :: post) →
      (∀ x ∈ mid ++ [p], some x ≠ head) →
      (∀ x ∈ mid, (load h (some x)).map task_info.tid ≠ some pid) →
      p ∉ u :: mid →
      ∃ r br, (u :: mid).getLast? = some r ∧ h[r]? = some br ∧
        deleteLoop pid head fuel h (some u) (some ((mid ++ [p]).headD 0)) =
          some ((h.set r { br with val := { br.val with next := bp.val.next } }).set p
                  { bp with freed := true }, some bp.val.next) := by
  intro mid
  induction mid with
  | nil =>
    intro u fuel hfuel hl hhead _ hpu
    rw [List.cons_append, links_cons] at hl
    obtain ⟨hlu, _, _⟩ := hl
    obtain ⟨bu, hbu, _⟩ := isLive_iff.1 hlu
    have hup : u ≠ p := by
      intro hh
      exact hpu (by simp [hh])
    refine ⟨u, bu, rfl, hbu, ?_⟩
    obtain ⟨n, rfl⟩ : ∃ n, fuel = n + 1 := ⟨fuel - 1, by omega⟩
    have hph : ¬ (some p = head) := hhead p (by simp)
    have hul : u < h.length := lt_of_getElem?_eq_some hbu
    simp only [List.nil_append, List.headD_cons, deleteLoop, if_neg hph, load_some hbp, hptid,
      if_true, storeNext_some _ hbu]
    rw [kfree_some (b := bp) (by rw [List.getElem?_set_ne hup]; exact hbp)]
    simp only []
    rw [load_some (b := { bu with val := { bu.val with next := bp.val.next } })
      (by rw [List.getElem?_set_ne (Ne.symm hup), List.getElem?_set_self hul])]
  | cons m mid ih =>
    intro u fuel hfuel hl hhead htids hpu
    obtain ⟨n, rfl⟩ : ∃ n, fuel = n + 1 := ⟨fuel - 1, by omega⟩
    rw [List.cons_append, links_cons] at hl
    obtain ⟨hlu, hnu, hl2⟩ := hl
    obtain ⟨bu, hbu, _⟩ := isLive_iff.1 hlu
    have hl2c := hl2
    rw [List.cons_append, links_cons] at hl2
    obtain ⟨hlm, hnm, _⟩ := hl2
    obtain ⟨bm, hbm, _⟩ := isLive_iff.1 hlm
    rw [nextOf_eq hbu] at hnu
    rw [nextOf_eq hbm, headD_append_cons] at hnm
    have hmh : ¬ (some m = head) := hhead m (by simp)
    have hmt : ¬ (bm.val.tid = pid) := by
      have := htids m (by simp)
      rw [load_some hbm] at this
      simpa using this
    simp only [List.length_cons] at hfuel
    obtain ⟨r, br, hr1, hr2, hr3⟩ := ih m n (by omega) hl2c
      (fun x hx => hhead x (by simp at hx ⊢; tauto))
      (fun x hx => htids x (List.mem_cons_of_mem _ hx))
      (by
        intro hin
        apply hpu
        simp only [List.mem_cons] at hin ⊢
        tauto)
    refine ⟨r, br, ?_, hr2, ?_⟩
    · rw [List.getLast?_cons_cons]; exact hr1
    · simp only [List.cons_append, List.headD_cons, deleteLoop, if_neg hmh, load_some hbm,
        if_neg hmt, load_some hbu, hnu, hnm]
      exact hr3

/-- Leave by the thread recorded in the head of a ring with another member, as one
equation. -/
theorem delete_head_eq (k : KState) (current : task_struct) (g : Nat) (hg : g < NCONT)
    (c : container_info) (hk : k.containers g = some c) (p q f : Nat) (bp bf : Block)
    (w : task_info) (hhead : c.head = some p) (hfoot : c.foot = some f)
    (hbp : k.heap[p]? = some bp) (hnext : bp.val.next = some q) (hqp : q ≠ p)
    (htid : bp.val.tid = current.pid) (hbf : k.heap[f]? = some bf) (hfp : f ≠ p)
    (hw : load ((k.heap.set f { bf with val := { bf.val with next := some q } }).set p
            { bp with freed := true }) (some q) = some w) :
    processor_container_delete k current ⟨g⟩ = some
      ⟨{ containers := Function.update k.containers g (some ⟨some q, some f, some q⟩),
         heap := (k.heap.set f { bf with val := { bf.val with next := some q } }).set p
            { bp with freed := true } },
       0, [Event.lock, Event.wake w.taskinlist, Event.unlock]⟩ := by
  have h1p : (k.heap.set f { bf with val := { bf.val with next := some q } })[p]? = some bp := by
    rw [List.getElem?_set_ne hfp]; exact hbp
  have hdh : deleteHead k.heap c (some p) =
      some ((k.heap.set f { bf with val := { bf.val with next := some q } }).set p
            { bp with freed := true }, ⟨some q, some f, some q⟩) := by
    simp only [deleteHead, load_some hbp, hnext, hfoot, storeNext_some _ hbf, load_some h1p,
      kfree_some h1p]
  simp only [processor_container_delete, toLongLong_of_lt g hg, slot_ofNat g hg, hk, hhead,
    load_some hbp, hnext, htid, if_true, hdh]
  rw [if_neg (by simpa using hqp)]
  simp only [deleteLoop, if_true, hw]

/-- Leave by a thread that is not recorded in the head, once the loop has unlinked a node, as
one equation. -/
theorem delete_mid_eq (k : KState) (current : task_struct) (g : Nat) (hg : g < NCONT)
    (c : container_info) (hk : k.containers g = some c) (a a1 : Nat) (ba : Block)
    (w : task_info) (hheap : List Block) (s : Option Nat)
    (hhead : c.head = some a) (hba : k.heap[a]? = some ba) (hnext : ba.val.next = some a1)
    (ha1 : a1 ≠ a) (htid : ba.val.tid ≠ current.pid)
    (hloop : deleteLoop current.pid (some a) (k.heap.length + 1) k.heap (some a) (some a1)
      = some (hheap, some s))
    (hw : load hheap s = some w) :
    processor_container_delete k current ⟨g⟩ = some
      ⟨{ containers := Function.update k.containers g (some { c with cur := s }),
         heap := hheap },
       0, [Event.lock, Event.wake w.taskinlist, Event.unlock]⟩ := by
  simp only [processor_container_delete, toLongLong_of_lt g hg, slot_ofNat g hg, hk, hhead,
    load_some hba, hnext, if_neg htid]
  rw [if_neg (by simpa using ha1)]
  simp only [hloop, hw]

theorem unlinked_other {h : List Block} {r p : Nat} {br bp : Block} {v : Option Nat} {x : Nat}
    (hxr : x ≠ r) (hxp : x ≠ p) : (unlinked h r br v p bp)[x]? = h[x]? := by
  unfold unlinked
  rw [List.getElem?_set_ne (Ne.symm hxp), List.getElem?_set_ne (Ne.symm hxr)]

theorem unlinked_pred {h : List Block} {r p : Nat} {br bp : Block} {v : Option Nat}
    (hbr : h[r]? = some br) (hrp : r ≠ p) :
    (unlinked h r br v p bp)[r]? = some { br with val := { br.val with next := v } } := by
  unfold unlinked
  rw [List.getElem?_set_ne (Ne.symm hrp), List.getElem?_set_self (lt_of_getElem?_eq_some hbr)]

theorem unlinked_freed {h : List Block} {r p : Nat} {br bp : Block} {v : Option Nat}
    (hbp : h[p]? = some bp) :
    (unlinked h r br v p bp)[p]? = some { bp with freed := true } := by
  unfold unlinked
  rw [List.getElem?_set_self (by simpa using lt_of_getElem?_eq_some hbp)]

theorem unlinked_ident {h : List Block} {r p : Nat} {br bp : Block} {v : Option Nat}
    (hbr : h[r]? = some br) (hrp : r ≠ p) {x : Nat} (hxp : x ≠ p) :
    ident (unlinked h r br v p bp) x = ident h x := by
  unfold ident
  by_cases hxr : x = r
  · subst hxr
    rw [load_some (unlinked_pred hbr hrp), load_some hbr]
    rfl
  · simp only [load]
    rw [unlinked_other hxr hxp]

theorem unlinked_not_live {h : List Block} {r p : Nat} {br bp : Block} {v : Option Nat}
    (hbp : h[p]? = some bp) : isLive (unlinked h r br v p bp) p = false := by
  simp [isLive, unlinked_freed hbp]

/-- The chain after a node behind the head has been unlinked. -/
theorem links_unlink {h : List Block} {e r p : Nat} {l post : List Nat} {br bp : Block}
    (hl : links h e (l ++ r :: p :: post)) (hnd : (l ++ r :: p :: post).Nodup)
    (hbr : h[r]? = some br) (hbp : h[p]? = some bp) :
    links (unlinked h r br bp.val.next p bp) e (l ++ r :: post) := by
  obtain ⟨hl1, hl2⟩ := links_append.1 hl
  rw [links_cons, links_cons] at hl2
  obtain ⟨hlr, _, _, hnp, hpost⟩ := hl2
  obtain ⟨hndl, hndr, hdis⟩ := List.nodup_append.1 hnd
  have hrp : r ≠ p := by
    intro hh
    simp [hh] at hndr
  rw [links_append, links_cons]
  refine ⟨?_, ?_, ?_, ?_⟩
  · refine links_congr (fun x hx => unlinked_other ?_ ?_) hl1
    · rintro rfl; exact hdis hx (by simp)
    · rintro rfl; exact hdis hx (by simp)
  · rw [isLive_iff]
    obtain ⟨b, hb, hfr⟩ := isLive_iff.1 hlr
    rw [hbr] at hb
    cases hb
    exact ⟨_, unlinked_pred hbr hrp, hfr⟩
  · rw [nextOf_eq (unlinked_pred hbr hrp), ← nextOf_eq hbp]
    exact hnp
  · refine links_congr (fun x hx => unlinked_other ?_ ?_) hpost
    · rintro rfl
      simp only [List.nodup_cons, List.mem_cons] at hndr
      tauto
    · rintro rfl
      simp only [List.nodup_cons, List.mem_cons] at hndr
      tauto

/-- The chain after the head has been unlinked and the tail redirected to the new head. -/
theorem links_unlink_head {h : List Block} {f p : Nat} {l : List Nat} {bf : Block} (bp : Block)
    (hl : links h p (p :: (l ++ [f]))) (hnd : (p :: (l ++ [f])).Nodup)
    (hbf : h[f]? = some bf) :
    links (unlinked h f bf (some ((l ++ [f]).headD 0)) p bp) ((l ++ [f]).headD 0) (l ++ [f]) := by
  rw [links_cons] at hl
  obtain ⟨_, _, hl2⟩ := hl
  obtain ⟨hl1, hlf, _, _⟩ := links_append.1 hl2
  rw [List.nodup_cons] at hnd
  obtain ⟨hpn, hnd2⟩ := hnd
  obtain ⟨_, _, hdis⟩ := List.nodup_append.1 hnd2
  have hfp : f ≠ p := by
    rintro rfl
    exact hpn (by simp)
  rw [links_append, links_cons]
  refine ⟨?_, ?_, ?_, trivial⟩
  · refine links_congr (fun x hx => unlinked_other ?_ ?_) hl1
    · rintro rfl; exact hdis hx (by simp)
    · rintro rfl; exact hpn (by simp [hx])
  · rw [isLive_iff]
    obtain ⟨b, hb, hfr⟩ := isLive_iff.1 hlf
    rw [hbf] at hb
    cases hb
    exact ⟨_, unlinked_pred hbf hfp, hfr⟩
  · rw [nextOf_eq (unlinked_pred hbf hfp)]
    rfl

/-- Leave by the thread whose record `p` is the first record of a well-formed ring
`pre ++ p :: post` (at least two members) that carries the caller's pid, whichever member is
cur: the record `p` is unlinked and freed and cur becomes its cyclic successor. -/
theorem delete_member_unlinks (k : KState) (current : task_struct) (g : Nat) (hg : g < NCONT)
    (c : container_info) (hk : k.containers g = some c) (pre post : List Nat) (p : Nat)
    (hr : isRing k.heap c (pre ++ p :: post)) (hlen : 2 ≤ (pre ++ p :: post).length)
    (htid : (load k.heap (some p)).map task_info.tid = some current.pid)
    (hpre : ∀ a ∈ pre, (load k.heap (some a)).map task_info.tid ≠ some current.pid) :
    ∃ r c2 w, processor_container_delete k current ⟨g⟩ = some r ∧
      r.state.containers g = some c2 ∧
      isCycle r.state.heap c2.head (pre ++ post) ∧
      c2.cur = some (cyclicSucc pre p post) ∧
      isLive r.state.heap p = false ∧
      (∀ a ∈ pre ++ post, ident r.state.heap a = ident k.heap a) ∧
      load r.state.heap (some (cyclicSucc pre p post)) = some w ∧
      r.woken = [w.taskinlist] ∧ r.suspended = false ∧ r.ret = 0 := by
  obtain ⟨⟨hne, hnd, hhead, hl⟩, hfoot⟩ := hr
  obtain ⟨bp, hbp, _⟩ := isLive_iff.1 (links_live hl p (by simp))
  rw [load_some hbp] at htid
  simp only [Option.map_some', Option.some.injEq] at htid
  have hpnot : p ∉ pre ++ post := by
    intro hin
    obtain ⟨_, h2, hdis⟩ := List.nodup_append.1 hnd
    rcases List.mem_append.1 hin with h | h
    · exact hdis h (by simp)
    · exact (List.nodup_cons.1 h2).1 h
  cases pre with
  | nil =>
    rcases List.eq_nil_or_concat post with hnil | ⟨l, f, hpost⟩
    · subst hnil; simp at hlen
    rw [List.concat_eq_append] at hpost
    subst hpost
    simp only [List.nil_append] at hl hnd hhead hfoot hpnot ⊢
    simp only [List.headD_cons] at hl
    have hl0 := hl
    rw [links_cons] at hl
    obtain ⟨_, hnp, hl2⟩ := hl
    obtain ⟨_, hlf, _, _⟩ := links_append.1 hl2
    obtain ⟨bf, hbf, _⟩ := isLive_iff.1 hlf
    rw [nextOf_eq hbp, headD_append_cons l [] f p] at hnp
    have hfp : f ≠ p := by
      rintro rfl
      exact hpnot (by simp)
    have hqmem : (l ++ [f]).headD 0 ∈ l ++ [f] := by cases l <;> simp
    have hqp : (l ++ [f]).headD 0 ≠ p := by
      intro hh
      exact hpnot (hh ▸ hqmem)
    have hlinks := links_unlink_head bp hl0 hnd hbf
    obtain ⟨bw, hbw, _⟩ := isLive_iff.1 (links_live hlinks _ hqmem)
    have hsucc : cyclicSucc [] p (l ++ [f]) = (l ++ [f]).headD 0 := by
      unfold cyclicSucc
      cases l <;> simp
    have hfoot2 : c.foot = some f := by
      rw [hfoot, ← List.cons_append, List.getLast?_concat]
    refine ⟨_, ⟨some ((l ++ [f]).headD 0), some f, some ((l ++ [f]).headD 0)⟩, bw.val,
      delete_head_eq k current g hg c hk p _ f bp bf bw.val hhead hfoot2 hbp
      hnp hqp htid hbf hfp (load_some hbw), Function.update_same _ _ _, ?_, ?_, ?_, ?_, ?_,
      by simp [Result.woken],
      by simp [Result.suspended], rfl⟩
    · exact ⟨by simp, (List.nodup_cons.1 hnd).2,
        (@head?_eq_some_headD (l ++ [f]) (by simp)).symm, hlinks⟩
    · rw [hsucc]
    · exact unlinked_not_live hbp
    · intro a ha
      refine unlinked_ident hbf hfp ?_
      rintro rfl
      exact hpnot ha
    · rw [hsucc]
      exact load_some hbw
  | cons a pre =>
    simp only [List.cons_append, List.headD_cons, List.head?_cons] at hl hhead ⊢
    have hl0 := hl
    rw [links_cons] at hl
    obtain ⟨hla, hna, hl2⟩ := hl
    obtain ⟨ba, hba, _⟩ := isLive_iff.1 hla
    rw [nextOf_eq hba, headD_append_cons] at hna
    have hndc := hnd
    rw [List.cons_append, List.nodup_cons] at hnd
    obtain ⟨hanot, hnd2⟩ := hnd
    have ha1mem : (pre ++ [p]).headD 0 ∈ pre ++ p :: post := by cases pre <;> simp
    have ha1 : (pre ++ [p]).headD 0 ≠ a := by
      intro hh
      exact hanot (hh ▸ ha1mem)
    have hatid : ba.val.tid ≠ current.pid := by
      have := hpre a (by simp)
      rw [load_some hba] at this
      simpa using this
    have hfuel : pre.length + 1 ≤ k.heap.length + 1 := by
      have hsub : pre.Nodup := (List.nodup_append.1 hnd2).1
      have := length_le_of_nodup_lt hsub
        (fun x hx => lt_of_isLive (links_live hl2 x (List.mem_append_left _ hx)))
      omega
    obtain ⟨r, br, hr1, hbr, hloop⟩ := deleteLoop_unlinks current.pid (some a) k.heap a post p bp
      hbp htid pre a (k.heap.length + 1) hfuel hl0
      (by
        intro x hx hh
        cases hh
        apply hanot
        simp only [List.mem_append, List.mem_singleton, List.mem_cons] at hx ⊢
        tauto)
      (fun x hx => hpre x (List.mem_cons_of_mem _ hx))
      (by
        intro hin
        apply hpnot
        rw [List.cons_append]
        rcases List.mem_cons.1 hin with h | h
        · exact h ▸ List.mem_cons_self _ _
        · exact List.mem_cons_of_mem _ (List.mem_append_left _ h))
    obtain ⟨l, hlr⟩ := List.getLast?_eq_some_iff.1 hr1
    have hrp : r ≠ p := by
      rintro rfl
      apply hpnot
      rw [hlr]
      simp
    have hnp : bp.val.next = some (cyclicSucc (a :: pre) p post) := by
      have := @links_next_mid _ _ (a :: pre) post p hl0
      rw [nextOf_eq hbp] at this
      rw [this]
      unfold cyclicSucc
      cases post <;> simp
    have hl3 : links k.heap a (l ++ r :: p :: post) := by
      have : l ++ r :: p :: post = a :: (pre ++ p :: post) := by
        rw [← List.cons_append, hlr]; simp
      rw [this]; exact hl0
    have hnd3 : (l ++ r :: p :: post).Nodup := by
      have : l ++ r :: p :: post = a :: pre ++ p :: post := by
        rw [hlr]; simp
      rw [this]; exact hndc
    have hlinks := links_unlink hl3 hnd3 hbr hbp
    rw [hnp] at hlinks
    have hloop2 : deleteLoop current.pid (some a) (k.heap.length + 1) k.heap (some a)
        (some ((pre ++ [p]).headD 0)) =
        some (unlinked k.heap r br (some (cyclicSucc (a :: pre) p post)) p bp,
          some (some (cyclicSucc (a :: pre) p post))) := by
      rw [← hnp]; exact hloop
    have hlist : l ++ r :: post = a :: (pre ++ post) := by
      rw [← List.cons_append, hlr]; simp
    rw [hlist] at hlinks
    have hsmem : cyclicSucc (a :: pre) p post ∈ a :: (pre ++ post) := by
      unfold cyclicSucc
      cases post <;> simp
    obtain ⟨bw, hbw, _⟩ := isLive_iff.1 (links_live hlinks _ hsmem)
    refine ⟨_, { c with cur := some (cyclicSucc (a :: pre) p post) }, bw.val,
      delete_mid_eq k current g hg c hk a _ ba bw.val _ _ hhead hba hna ha1 hatid hloop2
        (load_some hbw),
      Function.update_same _ _ _, ?_, rfl, ?_, ?_, ?_,
      by simp [Result.woken], by simp [Result.suspended], rfl⟩
    · refine ⟨by simp, ?_, hhead, hlinks⟩
      have hsl : (a :: (pre ++ post)).Sublist (a :: (pre ++ p :: post)) :=
        List.Sublist.cons₂ _ (List.Sublist.append_left (List.sublist_cons_self _ _) _)
      exact List.Nodup.sublist hsl (by simpa using hndc)
    · exact unlinked_not_live hbp
    · intro x hx
      refine unlinked_ident hbr hrp ?_
      rintro rfl
      exact hpnot hx
    · exact load_some hbw


/-! ## C1 to C5: statements, witnesses and counterexamples -/

/-- C5. Leave by the thread whose record `p` is the current member of a well-formed ring with
members `pre ++ p :: post` (at least two of them; `p` may be the head, an interior node or the
tail), when no record ahead of `p` carries the caller's pid: the call completes; the
traversal from head is afterwards `pre ++ post`, again a closed cycle of live records with
unchanged identities; the record `p` is freed; cur is the cyclic successor of `p`; the
thread of that successor is the one thread woken; the caller is not suspended; the return
value is 0. -/
theorem delete_current_member (k : KState) (current : task_struct) (g : Nat) (hg : g < NCONT)
    (c : container_info) (hk : k.containers g = some c) (pre post : List Nat) (p : Nat)
    (hr : isRing k.heap c (pre ++ p :: post)) (hlen : 2 ≤ (pre ++ p :: post).length)
    (_hcur : c.cur = some p)
    (htid : (load k.heap (some p)).map task_info.tid = some current.pid)
    (hpre : ∀ a ∈ pre, (load k.heap (some a)).map task_info.tid ≠ some current.pid) :
    ∃ r c2 w, processor_container_delete k current ⟨g⟩ = some r ∧
      r.state.containers g = some c2 ∧
      isCycle r.state.heap c2.head (pre ++ post) ∧
      c2.cur = some (cyclicSucc pre p post) ∧
      isLive r.state.heap p = false ∧
      (∀ a ∈ pre ++ post, ident r.state.heap a = ident k.heap a) ∧
      load r.state.heap (some (cyclicSucc pre p post)) = some w ∧
      r.woken = [w.taskinlist] ∧ r.suspended = false ∧ r.ret = 0 :=
  delete_member_unlinks k current g hg c hk pre post p hr hlen htid hpre


/-- Witness for C1: thread A joins group 7 on the freshly loaded module. -/
theorem create_on_unused_slot_witness :
    ∃ r a, processor_container_create allocFresh init threadA ⟨7⟩ = some r ∧
      a = (kmalloc allocFresh init.heap).1 ∧ isLive init.heap a = false ∧
      r.state.containers 7 = some ⟨some a, some a, some a⟩ ∧
      r.state.heap[a]? = some ⟨⟨((7 : Nat) : Int), threadA.pid, some a, threadA⟩, false⟩ ∧
      (∀ x, x ≠ a → r.state.heap[x]? = init.heap[x]?) ∧
      (∀ j, j ≠ 7 → r.state.containers j = init.containers j) ∧
      r.suspended = false ∧ r.woken = [] ∧ r.trace = [Event.lock, Event.unlock] ∧
      r.ret = 0 :=
  create_on_unused_slot allocFresh init threadA 7 (by decide) rfl

/-- Witness for C2: thread B joins group 0, whose ring is [A]. -/
theorem create_on_ring_witness :
    ∃ r a, processor_container_create allocFresh stSolo threadB ⟨0⟩ = some r ∧
      a = (kmalloc allocFresh stSolo.heap).1 ∧ isLive stSolo.heap a = false ∧
      r.state.containers 0 = some ⟨some 0, some a, some 0⟩ ∧
      isRing r.state.heap ⟨some 0, some a, some 0⟩ ([0] ++ [a]) ∧
      load r.state.heap (some a) = some ⟨((0 : Nat) : Int), threadB.pid, some 0, threadB⟩ ∧
      isLive r.state.heap a = true ∧
      (∀ p ∈ [0], ident r.state.heap p = ident stSolo.heap p) ∧
      r.trace = [Event.lock, Event.unlock, Event.sleep] ∧ r.suspended = true ∧
      r.ret = 0 :=
  create_on_ring allocFresh stSolo threadB 0 (by decide) ⟨some 0, some 0, some 0⟩ rfl [0]
    (by decide)

/-- Witness for C5: ring [A, B], cur = B, B leaves; the traversal becomes [A] with the next
link of A pointing to A, cur becomes A and A is woken. -/
theorem delete_current_member_witness :
    (∃ r c2 w, processor_container_delete stPairB threadB ⟨0⟩ = some r ∧
      r.state.containers 0 = some c2 ∧
      isCycle r.state.heap c2.head ([0] ++ []) ∧
      c2.cur = some (cyclicSucc [0] 1 []) ∧
      isLive r.state.heap 1 = false ∧
      (∀ a ∈ [0] ++ [], ident r.state.heap a = ident stPairB.heap a) ∧
      load r.state.heap (some (cyclicSucc [0] 1 [])) = some w ∧
      r.woken = [w.taskinlist] ∧ r.suspended = false ∧ r.ret = 0) ∧
    (processor_container_delete stPairB threadB ⟨0⟩).map
        (fun r => (r.state.containers 0, nextOf r.state.heap 0, r.woken, r.suspended, r.ret))
      = some (some ⟨some 0, some 1, some 0⟩, some 0, [threadA], false, 0) :=
  ⟨delete_current_member stPairB threadB 0 (by decide) ⟨some 0, some 1, some 1⟩ rfl [0] [] 1
    (by decide) (by decide) rfl (by decide) (by decide), by decide⟩


/-! ## C6 to C9: the code at the failing inputs -/

theorem isRing_foot_live {h : List Block} {c : container_info} {ps : List Nat}
    (hr : isRing h c ps) : ∃ f, c.foot = some f ∧ isLive h f = true := by
  obtain ⟨⟨hne, _, _, hl⟩, hfoot⟩ := hr
  rcases List.eq_nil_or_concat ps with hnil | ⟨l, f, hps⟩
  · exact absurd hnil hne
  rw [List.concat_eq_append] at hps
  subst hps
  rw [List.getLast?_concat] at hfoot
  exact ⟨f, hfoot, links_live hl f (by simp)⟩

/-- C6 on the code: thread A, the sole member of group 0, leaves. The call completes and
clears `head` only: `foot` and `cur` of the entry still hold the address of the record of A,
and that record has been freed. -/
theorem delete_sole_member_keeps_foot_cur :
    run allocFresh init [Call.join threadA 0] = some stSolo ∧
      stSolo.containers 0 = some ⟨some 0, some 0, some 0⟩ ∧
      isRing stSolo.heap ⟨some 0, some 0, some 0⟩ [0] ∧
      (processor_container_delete stSolo threadA ⟨0⟩).map
          (fun r => (r.state.containers 0, isLive r.state.heap 0, r.ret))
        = some (some ⟨none, some 0, some 0⟩, false, 0) :=
  ⟨rfl, by decide, by decide, by decide⟩

/-- C7 on the code: thread A joins group 0 and leaves it as its sole member, then thread C
joins group 0. The entry is not `NULL`, so the call takes the branch for an existing group:
it stores through the stale `foot`, leaves `head` `NULL` and `cur` at the freed record of A,
gives the record of C a `NULL` next link, and suspends C. A first-ever Join by C on the
same identifier returns without suspending, with head = foot = cur = the record of C. -/
theorem create_after_emptying_is_not_first_join :
    run allocFresh init [Call.join threadA 0, Call.leave threadA 0] = some stEmptied ∧
      (processor_container_create allocFresh stEmptied threadC ⟨0⟩).map
          (fun r => (r.suspended, r.state.containers 0, nextOf r.state.heap 1,
            isLive r.state.heap 0))
        = some (true, some ⟨none, some 1, some 0⟩, none, false) ∧
      (processor_container_create allocFresh init threadC ⟨0⟩).map
          (fun r => (r.suspended, r.state.containers 0, nextOf r.state.heap 0))
        = some (false, some ⟨some 0, some 0, some 0⟩, some 0) :=
  ⟨rfl, by decide, by decide⟩

/-- C8 on the code: group 0 is the only group in use and its ring [A, B] is well formed;
thread B, the tail, leaves. The call completes, the group keeps the member A, and `foot`
still holds the address of the record of B, which has been freed: no list of members makes
the entry a well-formed ring. -/
theorem delete_tail_leaves_stale_foot :
    run allocFresh init [Call.join threadA 0, Call.join threadB 0] = some stPair ∧
      stPair.containers 0 = some ⟨some 0, some 1, some 0⟩ ∧
      (∀ j, j ≠ 0 → stPair.containers j = none) ∧
      isRing stPair.heap ⟨some 0, some 1, some 0⟩ [0, 1] ∧
      ∃ r, processor_container_delete stPair threadB ⟨0⟩ = some r ∧
        r.state.containers 0 = some ⟨some 0, some 1, some 0⟩ ∧
        isLive r.state.heap 0 = true ∧ isLive r.state.heap 1 = false ∧
        ∀ ps, ¬ isRing r.state.heap ⟨some 0, some 1, some 0⟩ ps := by
  have hc : stPair.containers = Function.update (Function.update init.containers 0
      (some ⟨some 0, some 0, some 0⟩)) 0 (some ⟨some 0, some 1, some 0⟩) := rfl
  refine ⟨rfl, by decide, ?_, by decide, _, rfl, by decide, by decide, by decide, ?_⟩
  · intro j hj
    rw [hc, Function.update_noteq hj, Function.update_noteq hj]
    rfl
  intro ps hps
  obtain ⟨f, hf, hlive⟩ := isRing_foot_live hps
  cases hf
  revert hlive
  decide

/-- C9 on the code: the state after `dangleCalls` is reachable, group 0 has `head` present
(the live record of B), and its `cur` holds the address of the record of A, which has been
freed. -/
theorem cur_can_designate_freed_record :
    Reachable stDangling ∧
      stDangling.containers 0 = some ⟨some 1, some 2, some 0⟩ ∧
      isLive stDangling.heap 1 = true ∧ isLive stDangling.heap 0 = false ∧
      ident stDangling.heap 0 = some (0, threadA.pid, threadA) :=
  ⟨⟨allocFresh, dangleCalls, rfl⟩, by decide, by decide, by decide, by decide⟩


/-! ## C10: fairness in join order -/

theorem run_append (alloc : List Block → Nat) (k : KState) (l1 l2 : List Call) :
    run alloc k (l1 ++ l2) = (run alloc k l1).bind (fun k1 => run alloc k1 l2) := by
  induction l1 generalizing k with
  | nil => rfl
  | cons c rest ih =>
    simp only [List.cons_append, run]
    cases step alloc k c with
    | none => rfl
    | some r => exact ih r.state

theorem joins_snoc (g : Nat) (ts : List task_struct) (t : task_struct) :
    joins g (ts ++ [t]) = joins g ts ++ [Call.join t g] := by
  simp [joins]

theorem passesOver_mono {k k2 : KState} {pid : Int} {j : Nat}
    (hc : k2.containers j = k.containers j)
    (hh : ∀ a t, load k.heap (some a) = some t →
      ∃ t2, load k2.heap (some a) = some t2 ∧ t2.tid = t.tid)
    (hp : passesOver k pid j = true) : passesOver k2 pid j = true := by
  unfold passesOver at hp ⊢
  rw [hc]
  cases hcj : k.containers j with
  | none => rfl
  | some c =>
    simp only [hcj] at hp ⊢
    cases hcur : c.cur with
    | none => simp [hcur, load] at hp
    | some a =>
      rw [hcur] at hp
      cases hl : load k.heap (some a) with
      | none => simp [hl] at hp
      | some t =>
        obtain ⟨t2, ht2, htid⟩ := hh a t hl
        simp only [hl] at hp
        simp only [ht2, htid]
        exact hp

theorem Clear_mono {g : Nat} {ts : List task_struct} {k k2 : KState}
    (hc : ∀ j, j < g → k2.containers j = k.containers j)
    (hh : ∀ a t, load k.heap (some a) = some t →
      ∃ t2, load k2.heap (some a) = some t2 ∧ t2.tid = t.tid)
    (hcl : Clear g ts k) : Clear g ts k2 :=
  fun j hj t ht => passesOver_mono (hc j hj) hh (hcl j hj t ht)

theorem load_eq_some_iff {h : List Block} {a : Nat} {t : task_info} :
    load h (some a) = some t ↔ ∃ b, h[a]? = some b ∧ b.val = t := by
  simp [load]

theorem ident_eq_some {h : List Block} {a : Nat} {x : Int × Int × task_struct}
    (hi : ident h a = some x) :
    ∃ t, load h (some a) = some t ∧ t.cid = x.1 ∧ t.tid = x.2.1 ∧ t.taskinlist = x.2.2 := by
  unfold ident at hi
  cases hl : load h (some a) with
  | none => simp [hl] at hi
  | some t =>
    simp only [hl, Option.map_some', Option.some.injEq] at hi
    subst hi
    exact ⟨t, rfl, rfl, rfl, rfl⟩


/-- The scan passes over the lower-numbered slots as before when these slots are as they were
and every block that was in use is still in use with the tid it had. -/
theorem clear_live_mono {g : Nat} {ts : List task_struct} {k k2 : KState}
    (hc : ∀ j, j < g → k2.containers j = k.containers j)
    (hh : ∀ (x : Nat) (b : Block), k.heap[x]? = some b → b.freed = false →
      ∃ b2, k2.heap[x]? = some b2 ∧ b2.freed = false ∧ b2.val.tid = b.val.tid)
    (hcl : Clear g ts k) (hlv : CurLive g k) : Clear g ts k2 ∧ CurLive g k2 := by
  have hboth : ∀ j, j < g → curInUse k2 j = true ∧ ∀ t ∈ ts, passesOver k2 t.pid j = true := by
    intro j hj
    have h1 := hlv j hj
    have h2 := hcl j hj
    unfold curInUse at h1 ⊢
    unfold passesOver at h2 ⊢
    rw [hc j hj]
    cases hcj : k.containers j with
    | none => exact ⟨rfl, fun _ _ => rfl⟩
    | some c =>
      simp only [hcj] at h1 h2 ⊢
      cases hcur : c.cur with
      | none => simp [hcur] at h1
      | some a =>
        simp only [hcur] at h1 h2 ⊢
        obtain ⟨b, hb, hfr⟩ := isLive_iff.1 h1
        obtain ⟨b2, hb2, hfr2, htid⟩ := hh a b hb hfr
        refine ⟨isLive_iff.2 ⟨b2, hb2, hfr2⟩, ?_⟩
        intro t ht
        have := h2 t ht
        rw [load_some hb] at this
        rw [load_some hb2]
        simp only [htid]
        exact this
  exact ⟨fun j hj t ht => (hboth j hj).2 t ht, fun j hj => (hboth j hj).1⟩

/-- The first Join on the unused group `g`. -/
theorem join_first (alloc : List Block → Nat) (s : KState) (g : Nat) (hg : g < NCONT)
    (hs : s.containers g = none) (t : task_struct) (all : List task_struct)
    (hcl : Clear g all s) (hlv : CurLive g s) :
    ∃ k, run alloc s (joins g [t]) = some k ∧ Joined g [t] 0 k ∧ Clear g all k ∧
      CurLive g k := by
  have heq := create_unused_eq alloc s t g hg hs
  have hnl := kmalloc_not_live alloc s.heap
  obtain ⟨b0, hb0, _⟩ := kmalloc_block alloc s.heap
  have hlt := lt_of_getElem?_eq_some hb0
  have hother := fun x (hx : x ≠ (kmalloc alloc s.heap).1) => kmalloc_other alloc s.heap hx
  generalize (kmalloc alloc s.heap).1 = a at *
  generalize (kmalloc alloc s.heap).2 = h0 at *
  have hrun : run alloc s (joins g [t]) = some
      { containers := Function.update s.containers g (some ⟨some a, some a, some a⟩),
        heap := h0.set a ⟨⟨(g : Int), t.pid, some a, t⟩, false⟩ } := by
    simp only [joins, List.map, run, step]
    rw [heq]
  have hnew : (h0.set a ⟨⟨(g : Int), t.pid, some a, t⟩, false⟩)[a]?
      = some ⟨⟨(g : Int), t.pid, some a, t⟩, false⟩ := List.getElem?_set_self hlt
  refine ⟨_, hrun, ?_, ?_⟩
  · refine ⟨_, [a], Function.update_same _ _ _, ?_, rfl, by simp, ?_⟩
    · refine ⟨⟨by simp, by simp, rfl, ?_, ?_, trivial⟩, rfl⟩
      · exact isLive_iff.2 ⟨_, hnew, rfl⟩
      · rw [nextOf_eq hnew]
        rfl
    · simp [ident, load_some hnew]
  · refine clear_live_mono ?_ ?_ hcl hlv
    · intro j hj
      exact Function.update_noteq (by omega) _ _
    · intro x b hb hfr
      have hxa : x ≠ a := by
        rintro rfl
        simp [isLive, hb, hfr] at hnl
      refine ⟨b, ?_, hfr, rfl⟩
      show (h0.set a _)[x]? = some b
      rw [List.getElem?_set_ne (Ne.symm hxa), hother x hxa]
      exact hb

/-- A further Join on group `g`. -/
theorem join_next (alloc : List Block → Nat) (k : KState) (g : Nat) (hg : g < NCONT)
    (ts : List task_struct) (u : task_struct) (all : List task_struct)
    (hj : Joined g ts 0 k) (hcl : Clear g all k) (hlv : CurLive g k) :
    ∃ k2, run alloc k [Call.join u g] = some k2 ∧ Joined g (ts ++ [u]) 0 k2 ∧
      Clear g all k2 ∧ CurLive g k2 := by
  obtain ⟨c, ps, hk, hr, hcur, hi, hid⟩ := hj
  obtain ⟨r, hrun, _, hcont, hring, hload, _, hidold, _, _, hkeep⟩ :=
    create_ring_spec alloc k u g hg c hk ps hr
  refine ⟨r.state, ?_, ?_, ?_⟩
  · simp only [run, step, hrun]
  · refine ⟨_, ps ++ [(kmalloc alloc k.heap).1], ?_, hring, ?_, by simp, ?_⟩
    · rw [hcont]
      exact Function.update_same _ _ _
    · show c.cur = (ps ++ [(kmalloc alloc k.heap).1])[0]?
      rw [hcur, List.getElem?_append_left hi]
    · rw [List.map_append, List.map_append]
      congr 1
      · rw [← hid]
        exact List.map_congr_left hidold
      · simp [ident, hload]
  · refine clear_live_mono ?_ hkeep hcl hlv
    intro j hj
    rw [hcont]
    exact Function.update_noteq (by omega) _ _

/-- After the threads `t :: ts` have joined the unused group `g`, the ring of `g` holds
their records in join order and cur is the first of them. -/
theorem run_joins (alloc : List Block → Nat) (s : KState) (g : Nat) (hg : g < NCONT)
    (hs : s.containers g = none) (all : List task_struct) (hcl : Clear g all s)
    (hlv : CurLive g s) (t : task_struct) (ts : List task_struct) :
    ∃ k, run alloc s (joins g (t :: ts)) = some k ∧ Joined g (t :: ts) 0 k ∧ Clear g all k ∧
      CurLive g k := by
  induction ts using List.reverseRecOn with
  | nil => exact join_first alloc s g hg hs t all hcl hlv
  | append_singleton ts u ih =>
    obtain ⟨k, hrun, hj, hclk, hlvk⟩ := ih
    obtain ⟨k2, hrun2, hj2, hcl2, hlv2⟩ := join_next alloc k g hg (t :: ts) u all hj hclk hlvk
    refine ⟨k2, ?_, hj2, hcl2, hlv2⟩
    rw [← List.cons_append, joins_snoc, run_append, hrun]
    exact hrun2

theorem split_at_index (ps : List Nat) (i : Nat) (hi : i < ps.length) :
    ∃ pre p post, ps = pre ++ p :: post ∧ pre.length = i := by
  refine ⟨ps.take i, ps[i], ps.drop (i + 1), ?_, ?_⟩
  · rw [← List.drop_eq_getElem_cons hi, List.take_append_drop]
  · rw [List.length_take]; omega

theorem getElem?_mid (pre post : List Nat) (p : Nat) :
    (pre ++ p :: post)[pre.length]? = some p := by
  rw [List.getElem?_append_right (le_refl _)]
  simp

theorem cyclicSucc_index (pre post : List Nat) (p : Nat) :
    (pre ++ p :: post)[(pre.length + 1) % (pre ++ p :: post).length]?
      = some (cyclicSucc pre p post) := by
  unfold cyclicSucc
  cases post with
  | cons q post =>
    have hlt : pre.length + 1 < (pre ++ p :: q :: post).length := by simp
    rw [Nat.mod_eq_of_lt hlt, List.getElem?_append_right (by omega)]
    simp
  | nil =>
    have : (pre ++ [p]).length = pre.length + 1 := by simp
    rw [this, Nat.mod_self]
    cases pre <;> simp

/-- One Yield by the thread that is current in group `g`. -/
theorem yield_step (k : KState) (g : Nat) (hg : g < NCONT) (ts : List task_struct) (i : Nat)
    (hj : Joined g ts i k) (hcl : Clear g ts k) :
    ∃ k2, yieldCurrent g k = some k2 ∧ Joined g ts ((i + 1) % ts.length) k2 ∧
      Clear g ts k2 := by
  obtain ⟨c, ps, hk, hr, hcur, hi, hid⟩ := hj
  have hlen : ps.length = ts.length := by
    have := congrArg List.length hid
    simpa using this
  obtain ⟨pre, p, post, hps, hprelen⟩ := split_at_index ps i hi
  subst hps
  subst hprelen
  have hcurp : c.cur = some p := by
    rw [hcur, getElem?_mid]
  obtain ⟨t, hti⟩ : ∃ t, ts[pre.length]? = some t := by
    have : pre.length < ts.length := by rw [← hlen]; exact hi
    exact ⟨ts[pre.length], List.getElem?_eq_getElem this⟩
  have hidp : ident k.heap p = some ((g : Int), t.pid, t) := by
    have := congrArg (fun l => l[pre.length]?) hid
    simp only [List.getElem?_map, hti, Option.map_some', getElem?_mid] at this
    simpa using this
  obtain ⟨rec, hrec, _, hrtid, hrtask⟩ := ident_eq_some hidp
  simp only at hrtid hrtask
  have htid : (load k.heap (some p)).map task_info.tid = some t.pid := by
    rw [hrec]; simp [hrtid]
  have hcth : curThread g k = some t := by
    simp [curThread, hk, hcurp, hrec, hrtask]
  have hscan : ∀ j, j < g → passesOver k t.pid j = true :=
    fun j hj => hcl j hj t (List.getElem?_mem hti)
  rw [← hlen]
  by_cases hone : 2 ≤ (pre ++ p :: post).length
  · obtain ⟨w, _, heq⟩ := switch_ring_eq k t ⟨g⟩ g hg c hk pre post p hr.1 hone hcurp htid hscan
    have hy : yieldCurrent g k = some
        ⟨Function.update k.containers g (some { c with cur := some (cyclicSucc pre p post) }),
          k.heap⟩ := by
      simp only [yieldCurrent, hcth, heq, Option.map_some']
    refine ⟨_, hy, ?_, ?_⟩
    · refine ⟨_, pre ++ p :: post, Function.update_same _ _ _, hr, ?_, ?_, hid⟩
      · exact (cyclicSucc_index pre post p).symm
      · exact Nat.mod_lt _ (by omega)
    · refine Clear_mono (k := k) ?_ (fun a u hu => ⟨u, hu, rfl⟩) hcl
      intro j hj
      exact Function.update_noteq (Nat.ne_of_lt hj) _ _
  · have hpre : pre = [] := by
      cases pre with
      | nil => rfl
      | cons a pre => simp at hone
    have hpost : post = [] := by
      cases post with
      | nil => rfl
      | cons a post => simp at hone; omega
    subst hpre
    subst hpost
    have heq := switch_single_eq k t ⟨g⟩ g hg c hk p hr.1 hcurp htid hscan
    refine ⟨k, by simp only [yieldCurrent, hcth, heq, Option.map_some'], ?_, hcl⟩
    exact ⟨c, [p], hk, hr, by simpa using hcurp, by simp, hid⟩

/-- Yield `n` times in a row, each time by the thread that is current in group `g`. -/
theorem yields_spec (g : Nat) (hg : g < NCONT) (ts : List task_struct) :
    ∀ (n i : Nat) (k : KState), Joined g ts i k → Clear g ts k →
      ∃ k2, yields g n k = some k2 ∧ Joined g ts ((i + n) % ts.length) k2 ∧ Clear g ts k2 := by
  intro n
  induction n with
  | zero =>
    intro i k hj hcl
    refine ⟨k, rfl, ?_, hcl⟩
    have hi : i < ts.length := by
      obtain ⟨c, ps, _, _, _, hi, hid⟩ := hj
      have := congrArg List.length hid
      simp only [List.length_map] at this
      omega
    rw [Nat.add_zero, Nat.mod_eq_of_lt hi]
    exact hj
  | succ n ih =>
    intro i k hj hcl
    obtain ⟨k1, hy, hj1, hcl1⟩ := yield_step k g hg ts i hj hcl
    obtain ⟨k2, hy2, hj2, hcl2⟩ := ih _ k1 hj1 hcl1
    refine ⟨k2, by simp only [yields, hy, hy2], ?_, hcl2⟩
    have : ((i + 1) % ts.length + n) % ts.length = (i + (n + 1)) % ts.length := by
      rw [Nat.add_mod, Nat.mod_mod, ← Nat.add_mod]
      congr 1
      omega
    rw [← this]
    exact hj2

theorem curThread_of_joined {g : Nat} {ts : List task_struct} {i : Nat} {k : KState}
    (hj : Joined g ts i k) : curThread g k = ts[i]? := by
  obtain ⟨c, ps, hk, hr, hcur, hi, hid⟩ := hj
  have hlen : ps.length = ts.length := by
    have := congrArg List.length hid
    simpa using this
  have hti : ts[i]? = some ts[i] := List.getElem?_eq_getElem (by omega)
  have hpi : ps[i]? = some ps[i] := List.getElem?_eq_getElem hi
  have := congrArg (fun l => l[i]?) hid
  simp only [List.getElem?_map, hti, hpi, Option.map_some', Option.some.injEq] at this
  obtain ⟨rec, hrec, _, _, hrtask⟩ := ident_eq_some this
  simp only at hrtask
  simp only [curThread, hk, hcur, hpi, hrec, Option.map_some', hrtask, hti]


/-- C10 on the code. Where no lower-numbered entry holds a stale `cur`, the claim holds
for every allocator: when the threads `ts` (at least one, with distinct pids) join the unused
group `g` in this order, from a state in which every entry below `g` is `NULL` or has a `cur`
record that is in use and carries the pid of none of them, the joins complete, after `n`
Yields, each called by the thread that is current at that moment, the current thread is
`ts[n % N]`, and the threads that are current after Yield number `n + 1` to `n + N` are `ts`
rotated by `n + 1`, every member exactly once in cyclic join order.
Behind an emptied entry it fails. Thread C joins group 0 and leaves it as its sole member:
group 0 has no member, group 1 was never used, but `cur` of entry 0 still holds the address
of the freed record of C. Threads A and B join group 1 and the allocator hands the freed block
out again for the record of A: the ring of group 1 is [A, B] with A current. Yield by A is
served on entry 0: it moves `cur` of entry 0, wakes B and suspends A, and A is still current
in group 1, where the claim has B; after two Yields by the current thread the current thread
is B, where the claim has A. -/
theorem fairness_fails_behind_emptied_entry :
    (∀ (alloc : List Block → Nat) (s : KState) (g : Nat) (ts : List task_struct),
      g < NCONT → s.containers g = none → ts ≠ [] → (ts.map task_struct.pid).Nodup →
      Clear g ts s → CurLive g s →
      ∃ k, run alloc s (joins g ts) = some k ∧
        (∀ n, ∃ k2, yields g n k = some k2 ∧ curThread g k2 = ts[n % ts.length]?) ∧
        (∀ n, turns g k n ts.length = (ts.rotate (n + 1)).map some ∧
          (ts.rotate (n + 1)).Perm ts ∧ (ts.rotate (n + 1)).Nodup)) ∧
    (run allocReuse init [Call.join threadC 0, Call.leave threadC 0] = some stEmptiedByC ∧
      stEmptiedByC.containers 0 = some ⟨none, some 0, some 0⟩ ∧
      isLive stEmptiedByC.heap 0 = false ∧
      stEmptiedByC.containers 1 = none ∧
      Clear 1 [threadA, threadB] stEmptiedByC ∧ ¬ CurLive 1 stEmptiedByC ∧
      run allocReuse stEmptiedByC (joins 1 [threadA, threadB]) = some stReuseFair ∧
      stReuseFair.containers 1 = some ⟨some 0, some 1, some 0⟩ ∧
      isRing stReuseFair.heap ⟨some 0, some 1, some 0⟩ [0, 1] ∧
      [0, 1].map (ident stReuseFair.heap) = [some (1, 101, threadA), some (1, 102, threadB)] ∧
      curThread 1 stReuseFair = some threadA ∧
      (processor_container_switch stReuseFair threadA ⟨1⟩).map
          (fun r => (r.state.containers 0, r.state.containers 1, curThread 1 r.state, r.woken,
            r.suspended))
        = some (some ⟨none, some 0, some 1⟩, some ⟨some 0, some 1, some 0⟩, some threadA,
            [threadB], true) ∧
      (yields 1 1 stReuseFair).bind (curThread 1) = some threadA ∧
      [threadA, threadB][1 % 2]? = some threadB ∧
      turns 1 stReuseFair 0 4 = [some threadA, some threadB, some threadB, some threadA] ∧
      ([threadA, threadB].rotate 1).map some = [some threadB, some threadA]) := by
  refine ⟨?_, rfl, by decide, by decide, by decide, by decide, by decide, rfl, by decide, by decide,
    by decide, by decide, by decide, by decide, by decide, by decide, by decide⟩
  intro alloc s g ts hg hs hne hnd hcl hlv
  cases ts with
  | nil => exact absurd rfl hne
  | cons t ts =>
    obtain ⟨k, hrun, hj, hclk, _⟩ := run_joins alloc s g hg hs (t :: ts) hcl hlv t ts
    have hmain : ∀ n, ∃ k2, yields g n k = some k2 ∧
        curThread g k2 = (t :: ts)[n % (t :: ts).length]? := by
      intro n
      obtain ⟨k2, hy, hj2, _⟩ := yields_spec g hg (t :: ts) n 0 k hj hclk
      refine ⟨k2, hy, ?_⟩
      rw [curThread_of_joined hj2, Nat.zero_add]
    refine ⟨k, hrun, hmain, ?_⟩
    intro n
    refine ⟨?_, List.rotate_perm _ _, List.nodup_rotate.2 (List.Nodup.of_map _ hnd)⟩
    apply List.ext_getElem?
    intro j
    unfold turns
    rw [List.getElem?_map, List.getElem?_map]
    by_cases hjl : j < (t :: ts).length
    · rw [List.getElem?_range hjl, List.getElem?_rotate hjl]
      obtain ⟨k2, hy, hc⟩ := hmain (n + 1 + j)
      have hidx : (j + (n + 1)) % (t :: ts).length < (t :: ts).length :=
        Nat.mod_lt _ (by simp)
      simp only [Option.map_some', hy, Option.bind, hc]
      rw [show n + 1 + j = j + (n + 1) by omega, List.getElem?_eq_getElem hidx]
      rfl
    · have h1 : (List.range (t :: ts).length)[j]? = none :=
        List.getElem?_eq_none (by simpa using hjl)
      have h2 : ((t :: ts).rotate (n + 1))[j]? = none :=
        List.getElem?_eq_none (by rw [List.length_rotate]; omega)
      rw [h1, h2]
      rfl

/-! ## What a completed call looks like -/

theorem slot_eq_some {x : Int} {i : Nat} (h : slot x = some i) :
    x = (i : Int) ∧ i < NCONT := by
  unfold slot at h
  split at h
  · rename_i hx
    simp only [Option.some.injEq] at h
    subst h
    refine ⟨(Int.toNat_of_nonneg hx.1).symm, ?_⟩
    have := hx.2
    omega
  · cases h

/-- A completed Join: the slot is valid, the return value is 0, every other table entry is
untouched, and the trace is lock, unlock when the entry was `NULL` and lock, unlock,
schedule when it was not. -/
theorem create_shape {alloc : List Block → Nat} {k : KState} {current : task_struct}
    {cmd : processor_container_cmd} {r : Result}
    (h : processor_container_create alloc k current cmd = some r) :
    ∃ i, slot (toLongLong cmd.cid) = some i ∧ r.ret = 0 ∧
      (∀ j, j ≠ i → r.state.containers j = k.containers j) ∧
      ((k.containers i = none ∧ r.trace = [Event.lock, Event.unlock]) ∨
       (∃ c, k.containers i = some c ∧
         r.trace = [Event.lock, Event.unlock, Event.sleep])) := by
  unfold processor_container_create at h
  dsimp only at h
  split at h
  · cases h
  · rename_i i hi
    refine ⟨i, hi, ?_⟩
    split at h
    · rename_i hc
      split at h
      · cases h
      · split at h
        · cases h
        · simp only [Option.some.injEq] at h
          subst h
          exact ⟨rfl, fun j hj => Function.update_noteq hj _ _, Or.inl ⟨hc, rfl⟩⟩
    · rename_i c hc
      split at h
      · cases h
      · split at h
        · cases h
        · split at h
          · cases h
          · simp only [Option.some.injEq] at h
            subst h
            exact ⟨rfl, fun j hj => Function.update_noteq hj _ _, Or.inr ⟨c, hc, rfl⟩⟩

/-- A completed Yield: the return value is 0, the heap is untouched, the scan selected an
entry `i`, every other entry is untouched, head and foot of entry `i` are untouched, and
either nothing changed at all (trace lock, unlock), or cur of entry `i` moved to the `next`
field of the old cur record, which differs from cur, and the thread of the new cur record
was woken (trace lock, wake, unlock, schedule). -/
theorem switch_shape {k : KState} {current : task_struct} {cmd : processor_container_cmd}
    {r : Result} (h : processor_container_switch k current cmd = some r) :
    ∃ i c t, scan k current.pid NCONT 0 = some i ∧ k.containers i = some c ∧
      load k.heap c.cur = some t ∧ r.ret = 0 ∧ r.state.heap = k.heap ∧
      (∀ j, j ≠ i → r.state.containers j = k.containers j) ∧
      ((c.cur = t.next ∧ r.state = k ∧ r.trace = [Event.lock, Event.unlock]) ∨
       (c.cur ≠ t.next ∧ ∃ w, load k.heap t.next = some w ∧
         r.state.containers i = some ⟨c.head, c.foot, t.next⟩ ∧
         r.trace = [Event.lock, Event.wake w.taskinlist, Event.unlock, Event.sleep])) := by
  unfold processor_container_switch at h
  split at h
  · cases h
  · rename_i i hi
    split at h
    · cases h
    · rename_i c hc
      split at h
      · cases h
      · rename_i t ht
        refine ⟨i, c, t, hi, hc, ht, ?_⟩
        split at h
        · rename_i heq
          simp only [Option.some.injEq] at h
          subst h
          exact ⟨rfl, rfl, fun _ _ => rfl, Or.inl ⟨heq, rfl, rfl⟩⟩
        · rename_i hne
          dsimp only at h
          split at h
          · cases h
          · rename_i w hw
            simp only [Option.some.injEq] at h
            subst h
            exact ⟨rfl, rfl, fun j hj => Function.update_noteq hj _ _,
              Or.inr ⟨hne, w, hw, Function.update_same _ _ _, rfl⟩⟩

/-- The three ways in which Leave completes: on an entry without head; by freeing the head
whose `next` field is the head; by the head test and the unlinking loop followed by the
wake-up of cur. -/
theorem delete_cases {k : KState} {current : task_struct} {cmd : processor_container_cmd}
    {r : Result} (h : processor_container_delete k current cmd = some r) :
    ∃ i c, slot (toLongLong cmd.cid) = some i ∧ k.containers i = some c ∧
      ((c.head = none ∧ r = ⟨k, 0, [Event.lock, Event.unlock]⟩) ∨
       (∃ hd h1, load k.heap c.head = some hd ∧ hd.next = c.head ∧
          kfree k.heap c.head = some h1 ∧
          r = ⟨⟨Function.update k.containers i (some { c with head := none }), h1⟩, 0,
                [Event.lock, Event.unlock]⟩) ∨
       (∃ hd h1 c1 h2 ocur w, load k.heap c.head = some hd ∧ hd.next ≠ c.head ∧
          (if hd.tid = current.pid then deleteHead k.heap c c.head else some (k.heap, c))
            = some (h1, c1) ∧
          deleteLoop current.pid c1.head (h1.length + 1) h1 c.head hd.next = some (h2, ocur) ∧
          load h2 (ocur.getD c1.cur) = some w ∧
          r = ⟨⟨Function.update k.containers i (some { c1 with cur := ocur.getD c1.cur }), h2⟩,
                0, [Event.lock, Event.wake w.taskinlist, Event.unlock]⟩)) := by
  unfold processor_container_delete at h
  dsimp only at h
  split at h
  · cases h
  · rename_i i hi
    split at h
    · cases h
    · rename_i c hc
      refine ⟨i, c, hi, hc, ?_⟩
      split at h
      · rename_i hh
        simp only [Option.some.injEq] at h
        exact Or.inl ⟨hh, h.symm⟩
      · rename_i a hh
        split at h
        · cases h
        · rename_i hd hhd
          split at h
          · rename_i hnext
            split at h
            · cases h
            · rename_i h1 hf
              simp only [Option.some.injEq] at h
              exact Or.inr (Or.inl ⟨hd, h1, hhd, hnext, hf, h.symm⟩)
          · rename_i hnext
            split at h
            · cases h
            · rename_i h1 c1 hbr
              split at h
              · cases h
              · rename_i h2 ocur hloop
                have hc2 : (match ocur with
                    | none => c1
                    | some q => { c1 with cur := q })
                    = { c1 with cur := ocur.getD c1.cur } := by
                  cases ocur <;> rfl
                rw [hc2] at h
                split at h
                · cases h
                · rename_i w hw
                  simp only [Option.some.injEq] at h
                  exact Or.inr (Or.inr ⟨hd, h1, c1, h2, ocur, w, hhd, hnext, hbr, hloop, hw,
                    h.symm⟩)

/-- A completed Leave: the slot is valid and its entry present, the return value is 0,
every other table entry is untouched, and the trace is lock, unlock or lock, wake,
unlock. -/
theorem delete_shape {k : KState} {current : task_struct} {cmd : processor_container_cmd}
    {r : Result} (h : processor_container_delete k current cmd = some r) :
    ∃ i c, slot (toLongLong cmd.cid) = some i ∧ k.containers i = some c ∧ r.ret = 0 ∧
      (∀ j, j ≠ i → r.state.containers j = k.containers j) ∧
      (r.trace = [Event.lock, Event.unlock] ∨
        ∃ t, r.trace = [Event.lock, Event.wake t, Event.unlock]) := by
  obtain ⟨i, c, hi, hc, hcases⟩ := delete_cases h
  refine ⟨i, c, hi, hc, ?_⟩
  rcases hcases with ⟨_, rfl⟩ | ⟨hd, h1, _, _, _, rfl⟩ | ⟨hd, h1, c1, h2, ocur, w, _, _, _, _, _, rfl⟩
  · exact ⟨rfl, fun _ _ => rfl, Or.inl rfl⟩
  · exact ⟨rfl, fun j hj => Function.update_noteq hj _ _, Or.inl rfl⟩
  · exact ⟨rfl, fun j hj => Function.update_noteq hj _ _, Or.inr ⟨_, rfl⟩⟩


/-! ## Leave by a thread that is no member -/

/-- The unlinking loop of Leave when no record between `prev` and the head carries the
caller's pid: it walks to the head and changes nothing. -/
theorem deleteLoop_no_match (pid : Int) (h : List Block) (e : Nat) :
    ∀ (mid : List Nat) (u fuel : Nat), mid.length + 1 ≤ fuel →
      links h e (u :: mid) →
      (∀ x ∈ mid, x ≠ e) →
      (∀ x ∈ mid, (load h (some x)).map task_info.tid ≠ some pid) →
      deleteLoop pid (some e) fuel h (some u) (some (mid.headD e)) = some (h, none) := by
  intro mid
  induction mid with
  | nil =>
    intro u fuel hfuel _ _ _
    obtain ⟨n, rfl⟩ : ∃ n, fuel = n + 1 := ⟨fuel - 1, by omega⟩
    simp [deleteLoop]
  | cons m mid ih =>
    intro u fuel hfuel hl hne htids
    obtain ⟨n, rfl⟩ : ∃ n, fuel = n + 1 := ⟨fuel - 1, by omega⟩
    rw [links_cons] at hl
    obtain ⟨hlu, hnu, hl2⟩ := hl
    obtain ⟨bu, hbu, _⟩ := isLive_iff.1 hlu
    have hl2c := hl2
    rw [links_cons] at hl2
    obtain ⟨hlm, hnm, _⟩ := hl2
    obtain ⟨bm, hbm, _⟩ := isLive_iff.1 hlm
    rw [nextOf_eq hbu] at hnu
    rw [nextOf_eq hbm] at hnm
    have hmh : ¬ (some m = some e) := by
      intro hh
      have hme : m = e := Option.some.inj hh
      exact hne m (by simp) hme
    have hmt : ¬ (bm.val.tid = pid) := by
      have := htids m (by simp)
      rw [load_some hbm] at this
      simpa using this
    simp only [List.length_cons] at hfuel
    have hrec := ih m n (by omega) hl2c (fun x hx => hne x (List.mem_cons_of_mem _ hx))
      (fun x hx => htids x (List.mem_cons_of_mem _ hx))
    simp only [List.headD_cons, deleteLoop, if_neg hmh, load_some hbm, if_neg hmt,
      load_some hbu, hnu, hnm]
    exact hrec

/-- Leave on an entry without head: nothing happens. -/
theorem delete_empty_entry_eq (k : KState) (current : task_struct) (g : Nat) (hg : g < NCONT)
    (c : container_info) (hk : k.containers g = some c) (hh : c.head = none) :
    processor_container_delete k current ⟨g⟩ = some ⟨k, 0, [Event.lock, Event.unlock]⟩ := by
  simp only [processor_container_delete, toLongLong_of_lt g hg, slot_ofNat g hg, hk, hh]

/-- Leave by a thread whose pid no member carries, on a well-formed ring with at least two
members: the state is as it was, and the thread of cur is woken. -/
theorem delete_stranger_eq (k : KState) (current : task_struct) (g : Nat) (hg : g < NCONT)
    (c : container_info) (hk : k.containers g = some c) (ps : List Nat) (q : Nat)
    (hr : isRing k.heap c ps) (hlen : 2 ≤ ps.length) (hcur : c.cur = some q) (hq : q ∈ ps)
    (hno : ∀ a ∈ ps, (load k.heap (some a)).map task_info.tid ≠ some current.pid) :
    ∃ w, load k.heap (some q) = some w ∧
      processor_container_delete k current ⟨g⟩
        = some ⟨k, 0, [Event.lock, Event.wake w.taskinlist, Event.unlock]⟩ := by
  obtain ⟨⟨hne, hnd, hhead, hl⟩, _⟩ := hr
  cases ps with
  | nil => exact absurd rfl hne
  | cons a rest =>
    simp only [List.headD_cons, List.head?_cons] at hl hhead
    have hl0 := hl
    rw [links_cons] at hl
    obtain ⟨hla, hna, _⟩ := hl
    obtain ⟨ba, hba, _⟩ := isLive_iff.1 hla
    obtain ⟨bq, hbq, _⟩ := isLive_iff.1 (links_live hl0 q hq)
    rw [nextOf_eq hba] at hna
    rw [List.nodup_cons] at hnd
    obtain ⟨hanot, hnd2⟩ := hnd
    have hrest : rest ≠ [] := by
      intro hh
      subst hh
      simp at hlen
    have ha1 : rest.headD a ≠ a := by
      intro hh
      apply hanot
      cases rest with
      | nil => exact absurd rfl hrest
      | cons b rest =>
        simp only [List.headD_cons] at hh
        rw [hh]
        exact List.mem_cons_self _ _
    have hatid : ba.val.tid ≠ current.pid := by
      have := hno a (by simp)
      rw [load_some hba] at this
      simpa using this
    have hfuel : rest.length + 1 ≤ k.heap.length + 1 := by
      have := length_le_of_nodup_lt hnd2
        (fun x hx => lt_of_isLive (links_live hl0 x (List.mem_cons_of_mem _ hx)))
      omega
    have hloop := deleteLoop_no_match current.pid k.heap a rest a (k.heap.length + 1) hfuel
      hl0 (fun x hx hh => hanot (hh ▸ hx)) (fun x hx => hno x (List.mem_cons_of_mem _ hx))
    refine ⟨bq.val, load_some hbq, ?_⟩
    simp only [processor_container_delete, toLongLong_of_lt g hg, slot_ofNat g hg, hk, hhead,
      load_some hba, hna, if_neg hatid]
    rw [if_neg (by simpa using ha1)]
    simp only [hloop, hcur, load_some hbq]
    have hupd : Function.update k.containers g (some c) = k.containers := by
      rw [← hk]
      exact Function.update_eq_self g k.containers
    rw [hupd]


/-! ## C12, C15, C16: the scan, the dispatcher, the lock -/

theorem scan_some (k : KState) (pid : Int) :
    ∀ (n i0 i : Nat), scan k pid n i0 = some i →
      i0 ≤ i ∧ i < i0 + n ∧
      (∃ c t, k.containers i = some c ∧ load k.heap c.cur = some t ∧ t.tid = pid) ∧
      ∀ j, i0 ≤ j → j < i → passesOver k pid j = true := by
  intro n
  induction n with
  | zero => intro i0 i h; simp [scan] at h
  | succ n ih =>
    intro i0 i h
    unfold scan at h
    have hstep : ∀ (hp : passesOver k pid i0 = true), scan k pid n (i0 + 1) = some i →
        i0 ≤ i ∧ i < i0 + (n + 1) ∧
        (∃ c t, k.containers i = some c ∧ load k.heap c.cur = some t ∧ t.tid = pid) ∧
        ∀ j, i0 ≤ j → j < i → passesOver k pid j = true := by
      intro hp hrec
      obtain ⟨h1, h2, h3, h4⟩ := ih (i0 + 1) i hrec
      refine ⟨by omega, by omega, h3, ?_⟩
      intro j hj1 hj2
      by_cases hj : j = i0
      · rw [hj]; exact hp
      · exact h4 j (by omega) hj2
    split at h
    · rename_i hc
      exact hstep (by simp [passesOver, hc]) h
    · rename_i c hc
      split at h
      · cases h
      · rename_i t ht
        split at h
        · rename_i htid
          simp only [Option.some.injEq] at h
          subst h
          exact ⟨le_refl _, by omega, ⟨c, t, hc, ht, htid⟩, fun j h1 h2 => by omega⟩
        · rename_i htid
          exact hstep (by simp [passesOver, hc, ht, htid]) h

/-- C12. Yield ignores the supplied group identifier: for every state, caller and two
payloads, `processor_container_switch` gives the same result (the same table and heap, the
same trace of wake-up and suspension, the same return value, or no completion in both cases).
When the call completes, the entry it acted on is the first entry of the table, in index
order, whose cur record carries the caller's pid, and every other entry is unchanged. -/
theorem switch_ignores_group_id (k : KState) (current : task_struct)
    (cmd1 cmd2 : processor_container_cmd) :
    processor_container_switch k current cmd1 = processor_container_switch k current cmd2 ∧
      ∀ r, processor_container_switch k current cmd1 = some r →
        ∃ i c t, i < NCONT ∧ k.containers i = some c ∧ load k.heap c.cur = some t ∧
          t.tid = current.pid ∧ (∀ j, j < i → passesOver k current.pid j = true) ∧
          (∀ j, j ≠ i → r.state.containers j = k.containers j) := by
  refine ⟨rfl, ?_⟩
  intro r hr
  obtain ⟨i, c, t, hscan, hc, ht, _, _, hframe, _⟩ := switch_shape hr
  obtain ⟨_, hlt, ⟨c2, t2, hc2, ht2, htid⟩, hpass⟩ := scan_some k current.pid NCONT 0 i hscan
  rw [hc] at hc2
  cases hc2
  rw [ht] at ht2
  cases ht2
  exact ⟨i, c, t, by omega, hc, ht, htid, fun j hj => hpass j (Nat.zero_le _) hj, hframe⟩

/-- Witness for C12: thread A, current in the ring [A, B] of group 0, yields with group
ids 0 and 7. -/
theorem switch_ignores_group_id_witness :
    processor_container_switch stPair threadA ⟨0⟩ = processor_container_switch stPair threadA ⟨7⟩ ∧
      ∃ r, processor_container_switch stPair threadA ⟨7⟩ = some r ∧
        ∃ i c t, i < NCONT ∧ stPair.containers i = some c ∧ load stPair.heap c.cur = some t ∧
          t.tid = threadA.pid ∧ (∀ j, j < i → passesOver stPair threadA.pid j = true) ∧
          (∀ j, j ≠ i → r.state.containers j = stPair.containers j) :=
  ⟨(switch_ignores_group_id stPair threadA ⟨0⟩ ⟨7⟩).1,
    _, rfl, (switch_ignores_group_id stPair threadA ⟨7⟩ ⟨0⟩).2 _ rfl⟩

/-- C15. The dispatcher, for pairwise different opcodes: CREATE is Join, DELETE is Leave and
CSWITCH is Yield, on the same state, caller and payload; each of the three returns 0
whenever it completes, whatever the allocator; every other opcode returns `-ENOTTY`, with the state as it was and
an empty trace (no call into the mutex, the scheduler or the table). -/
theorem ioctl_dispatch (ops : Opcodes) (hd : ops.distinct) :
    (∀ (alloc : List Block → Nat) k current arg,
      processor_container_ioctl alloc ops k current ops.create arg
          = processor_container_create alloc k current arg ∧
        processor_container_ioctl alloc ops k current ops.delete arg
          = processor_container_delete k current arg ∧
        processor_container_ioctl alloc ops k current ops.cswitch arg
          = processor_container_switch k current arg) ∧
      (∀ (alloc : List Block → Nat) k current arg r,
        (processor_container_create alloc k current arg = some r ∨
          processor_container_delete k current arg = some r ∨
          processor_container_switch k current arg = some r) → r.ret = 0) ∧
      (∀ (alloc : List Block → Nat) k current cmd arg, cmd ≠ ops.create → cmd ≠ ops.delete → cmd ≠ ops.cswitch →
        processor_container_ioctl alloc ops k current cmd arg = some ⟨k, -ENOTTY, []⟩) := by
  obtain ⟨h1, h2, h3⟩ := hd
  refine ⟨?_, ?_, ?_⟩
  · intro alloc k current arg
    refine ⟨?_, ?_, ?_⟩
    · simp [processor_container_ioctl, Ne.symm h1]
    · simp [processor_container_ioctl, Ne.symm h2, Ne.symm h3]
    · simp [processor_container_ioctl]
  · intro alloc k current arg r h
    rcases h with h | h | h
    · obtain ⟨_, _, hret, _⟩ := create_shape h
      exact hret
    · obtain ⟨_, _, _, _, hret, _⟩ := delete_shape h
      exact hret
    · obtain ⟨_, _, _, _, _, _, hret, _⟩ := switch_shape h
      exact hret
  · intro alloc k current cmd arg hc hdel hs
    simp [processor_container_ioctl, hc, hdel, hs]

/-- Witness for C15: the opcodes 2, 0, 1. -/
theorem ioctl_dispatch_witness :
    (∀ (alloc : List Block → Nat) k current arg,
      processor_container_ioctl alloc opsExample k current opsExample.create arg
          = processor_container_create alloc k current arg ∧
        processor_container_ioctl alloc opsExample k current opsExample.delete arg
          = processor_container_delete k current arg ∧
        processor_container_ioctl alloc opsExample k current opsExample.cswitch arg
          = processor_container_switch k current arg) ∧
      (∀ (alloc : List Block → Nat) k current arg r,
        (processor_container_create alloc k current arg = some r ∨
          processor_container_delete k current arg = some r ∨
          processor_container_switch k current arg = some r) → r.ret = 0) ∧
      (∀ (alloc : List Block → Nat) k current cmd arg, cmd ≠ opsExample.create → cmd ≠ opsExample.delete →
        cmd ≠ opsExample.cswitch →
        processor_container_ioctl alloc opsExample k current cmd arg = some ⟨k, -ENOTTY, []⟩) :=
  ioctl_dispatch opsExample (by decide)

/-- C16 on the code. On every completed Join, Leave and Yield the trace keeps the lock
discipline: the mutex is taken first and once, given back once, wake-ups lie in between and
`schedule` comes after. Leave never suspends; Yield suspends exactly when the `next` field of
the selected cur record is not cur; Join suspends exactly when the table entry is not
`NULL`. The last is not "the group is non-empty": after thread A has joined and left group 0
the entry has no head, and Join by thread C is suspended all the same. -/
theorem lock_discipline_and_join_on_emptied_entry :
    (∀ (alloc : List Block → Nat) k current cmd r,
      processor_container_create alloc k current cmd = some r →
      wellLocked r.trace = true ∧
      ∃ i, slot (toLongLong cmd.cid) = some i ∧
        (r.suspended = true ↔ k.containers i ≠ none)) ∧
    (∀ k current cmd r, processor_container_delete k current cmd = some r →
      wellLocked r.trace = true ∧ r.suspended = false) ∧
    (∀ k current cmd r, processor_container_switch k current cmd = some r →
      wellLocked r.trace = true ∧
      ∃ i c t, scan k current.pid NCONT 0 = some i ∧ k.containers i = some c ∧
        load k.heap c.cur = some t ∧ (r.suspended = true ↔ c.cur ≠ t.next)) ∧
    (run allocFresh init [Call.join threadA 0, Call.leave threadA 0] = some stEmptied ∧
      stEmptied.containers 0 = some ⟨none, some 0, some 0⟩ ∧
      (processor_container_create allocFresh stEmptied threadC ⟨0⟩).map
          (fun r => (r.suspended, r.trace))
        = some (true, [Event.lock, Event.unlock, Event.sleep])) := by
  refine ⟨?_, ?_, ?_, rfl, by decide, by decide⟩
  · intro alloc k current cmd r h
    obtain ⟨i, hi, _, _, hcase⟩ := create_shape h
    rcases hcase with ⟨hc, htr⟩ | ⟨c, hc, htr⟩
    · exact ⟨by rw [htr]; rfl, i, hi, by simp [Result.suspended, htr, hc]⟩
    · exact ⟨by rw [htr]; rfl, i, hi, by simp [Result.suspended, htr, hc]⟩
  · intro k current cmd r h
    obtain ⟨i, c, _, _, _, _, htr⟩ := delete_shape h
    rcases htr with htr | ⟨t, htr⟩
    · exact ⟨by rw [htr]; rfl, by simp [Result.suspended, htr]⟩
    · exact ⟨by rw [htr]; rfl, by simp [Result.suspended, htr]⟩
  · intro k current cmd r h
    obtain ⟨i, c, t, hscan, hc, ht, _, _, _, hcase⟩ := switch_shape h
    rcases hcase with ⟨heq, _, htr⟩ | ⟨hne, w, _, _, htr⟩
    · exact ⟨by rw [htr]; rfl, i, c, t, hscan, hc, ht, by simp [Result.suspended, htr, heq]⟩
    · exact ⟨by rw [htr]; rfl, i, c, t, hscan, hc, ht, by simp [Result.suspended, htr, hne]⟩


/-! ## C11, C13, C14, C18 -/

/-- C11 on the code: after `lateJoinCalls` (every Leave and Yield made by the thread that was
current) group 0 has two members that have joined and not left, A and C. The records of both
are live, but the cycle of next links from cur, and from head, is [A]: the record of C is
not on it, `foot` points to it, and four Yields by the current thread give the turn to A
four times. -/
theorem late_joiner_is_outside_the_cycle :
    run allocFresh init lateJoinCalls = some stLateJoin ∧
      stLateJoin.containers 0 = some ⟨some 0, some 2, some 0⟩ ∧
      isCycle stLateJoin.heap (some 0) [0] ∧
      ident stLateJoin.heap 0 = some (0, threadA.pid, threadA) ∧
      isLive stLateJoin.heap 2 = true ∧
      ident stLateJoin.heap 2 = some (0, threadC.pid, threadC) ∧
      turns 0 stLateJoin 0 4 = [some threadA, some threadA, some threadA, some threadA] :=
  ⟨rfl, by decide, by decide, by decide, by decide, by decide, by decide⟩

/-- C13, as amended. Leave by the thread whose record `p` is a member of a well-formed ring
`pre ++ p :: post` (at least two members; `p` may be the head, an interior node or the tail)
while cur is another member `q`, when no record ahead of `p` carries the caller's pid: the
call completes; the traversal from head is afterwards `pre ++ post`, a closed cycle of live
records with unchanged identities; the record `p` is freed; cur is the cyclic successor of
`p` and the thread of that successor is woken; so cur is what it was exactly when `q` is that
successor. -/
theorem delete_non_current_member (k : KState) (current : task_struct) (g : Nat)
    (hg : g < NCONT) (c : container_info) (hk : k.containers g = some c)
    (pre post : List Nat) (p q : Nat)
    (hr : isRing k.heap c (pre ++ p :: post)) (hlen : 2 ≤ (pre ++ p :: post).length)
    (hcur : c.cur = some q) (_hq : q ∈ pre ++ post)
    (htid : (load k.heap (some p)).map task_info.tid = some current.pid)
    (hpre : ∀ a ∈ pre, (load k.heap (some a)).map task_info.tid ≠ some current.pid) :
    ∃ r c2 w, processor_container_delete k current ⟨g⟩ = some r ∧
      r.state.containers g = some c2 ∧
      isCycle r.state.heap c2.head (pre ++ post) ∧
      isLive r.state.heap p = false ∧
      (∀ a ∈ pre ++ post, ident r.state.heap a = ident k.heap a) ∧
      c2.cur = some (cyclicSucc pre p post) ∧
      load r.state.heap (some (cyclicSucc pre p post)) = some w ∧
      r.woken = [w.taskinlist] ∧
      (c2.cur = c.cur ↔ q = cyclicSucc pre p post) ∧
      r.suspended = false ∧ r.ret = 0 := by
  obtain ⟨r, c2, w, h1, h2, h3, h4, h5, h6, h7, h8, h9, h10⟩ :=
    delete_member_unlinks k current g hg c hk pre post p hr hlen htid hpre
  refine ⟨r, c2, w, h1, h2, h3, h5, h6, h4, h7, h8, ?_, h9, h10⟩
  rw [h4, hcur]
  constructor
  · intro h
    cases h
    rfl
  · intro h
    rw [h]

/-- Witness for C13 as amended: ring [A, B, C] of group 0, cur = A, B leaves. -/
theorem delete_non_current_member_witness :
    ∃ r c2 w, processor_container_delete stTriple threadB ⟨0⟩ = some r ∧
      r.state.containers 0 = some c2 ∧
      isCycle r.state.heap c2.head ([0] ++ [2]) ∧
      isLive r.state.heap 1 = false ∧
      (∀ a ∈ [0] ++ [2], ident r.state.heap a = ident stTriple.heap a) ∧
      c2.cur = some (cyclicSucc [0] 1 [2]) ∧
      load r.state.heap (some (cyclicSucc [0] 1 [2])) = some w ∧
      r.woken = [w.taskinlist] ∧
      (c2.cur = (⟨some 0, some 2, some 0⟩ : container_info).cur ↔ 0 = cyclicSucc [0] 1 [2]) ∧
      r.suspended = false ∧ r.ret = 0 :=
  delete_non_current_member stTriple threadB 0 (by decide) ⟨some 0, some 2, some 0⟩ rfl
    [0] [2] 1 0 (by decide) (by decide) rfl (by decide) (by decide) (by decide)

/-- C13 fails as stated: in the well-formed ring [A, B, C] of group 0 with cur = A, thread B,
a member that is not current, leaves. Its record is removed, and cur does not stay at A: it
becomes the record of C, and C is woken. -/
theorem delete_non_current_member_counterexample :
    run allocFresh init (joins 0 [threadA, threadB, threadC]) = some stTriple ∧
      stTriple.containers 0 = some ⟨some 0, some 2, some 0⟩ ∧
      isRing stTriple.heap ⟨some 0, some 2, some 0⟩ [0, 1, 2] ∧
      ident stTriple.heap 0 = some (0, threadA.pid, threadA) ∧
      ident stTriple.heap 1 = some (0, threadB.pid, threadB) ∧
      (processor_container_delete stTriple threadB ⟨0⟩).map
          (fun r => (r.state.containers 0, ident r.state.heap 2, r.woken))
        = some (some ⟨some 0, some 2, some 2⟩, some (0, threadC.pid, threadC), [threadC]) :=
  ⟨rfl, by decide, by decide, by decide, by decide, by decide⟩

/-- C14 on the code. Leave on an entry without head completes with return value 0 and the
state as it was. Leave by a thread whose pid no member carries, on a well-formed ring with at
least two members, completes with return value 0 and the state as it was (the thread of cur
is woken). On a ring with one member the tids are not compared: group 0 has the single member
A, thread B leaves group 0, the call returns 0, the record of A is freed and `head` is
cleared. -/
theorem delete_by_stranger_removes_sole_member :
    (∀ (k : KState) (current : task_struct) (g : Nat) (c : container_info), g < NCONT →
      k.containers g = some c → c.head = none →
      processor_container_delete k current ⟨g⟩ = some ⟨k, 0, [Event.lock, Event.unlock]⟩) ∧
    (∀ (k : KState) (current : task_struct) (g : Nat) (c : container_info) (ps : List Nat)
      (q : Nat), g < NCONT → k.containers g = some c → isRing k.heap c ps → 2 ≤ ps.length →
      c.cur = some q → q ∈ ps →
      (∀ a ∈ ps, (load k.heap (some a)).map task_info.tid ≠ some current.pid) →
      ∃ w, load k.heap (some q) = some w ∧
        processor_container_delete k current ⟨g⟩
          = some ⟨k, 0, [Event.lock, Event.wake w.taskinlist, Event.unlock]⟩) ∧
    (run allocFresh init [Call.join threadA 0] = some stSolo ∧
      stSolo.containers 0 = some ⟨some 0, some 0, some 0⟩ ∧
      isRing stSolo.heap ⟨some 0, some 0, some 0⟩ [0] ∧
      ident stSolo.heap 0 = some (0, threadA.pid, threadA) ∧
      threadB.pid ≠ threadA.pid ∧
      (processor_container_delete stSolo threadB ⟨0⟩).map
          (fun r => (r.ret, r.state.containers 0, isLive r.state.heap 0))
        = some (0, some ⟨none, some 0, some 0⟩, false)) :=
  ⟨fun k current g c hg hk hh => delete_empty_entry_eq k current g hg c hk hh,
    fun k current g c ps q hg hk hr hlen hcur hq hno =>
      delete_stranger_eq k current g hg c hk ps q hr hlen hcur hq hno,
    rfl, by decide, by decide, by decide, by decide, by decide⟩

/-- C18 on the code: after `shadowCalls` thread A is the current member of the two-member
group 1, whose ring [A, B] is well formed, and group 0, which A has left as its sole member,
has no head. Yield by A selects entry 0, whose stale `cur` still points to the freed record
of A with its `next` field pointing to itself: nothing changes, nobody is woken, A is not
suspended, and cur of group 1 stays A. -/
theorem switch_selects_emptied_entry :
    run allocFresh init shadowCalls = some stShadow ∧
      stShadow.containers 0 = some ⟨none, some 0, some 0⟩ ∧
      isLive stShadow.heap 0 = false ∧
      stShadow.containers 1 = some ⟨some 1, some 2, some 1⟩ ∧
      isRing stShadow.heap ⟨some 1, some 2, some 1⟩ [1, 2] ∧
      ident stShadow.heap 1 = some (1, threadA.pid, threadA) ∧
      scan stShadow threadA.pid NCONT 0 = some 0 ∧
      (processor_container_switch stShadow threadA ⟨1⟩).map
          (fun r => (r.suspended, r.woken, r.state.containers 1, r.ret))
        = some (false, [], some ⟨some 1, some 2, some 1⟩, 0) :=
  ⟨rfl, by decide, by decide, by decide, by decide, by decide, by decide, by decide⟩



/-! ## C19: which blocks a call writes -/

theorem modify_other {h h2 : List Block} {p : Option Nat} {f : task_info → task_info}
    (hm : modify h p f = some h2) {x : Nat} (hx : p ≠ some x) : h2[x]? = h[x]? := by
  cases p with
  | none => simp [modify] at hm
  | some a =>
    unfold modify at hm
    cases hb : h[a]? with
    | none => simp [hb] at hm
    | some b =>
      simp only [hb, Option.some.injEq] at hm
      subst hm
      exact List.getElem?_set_ne (fun hax => hx (by rw [hax]))

theorem ptrIn_some {S : List Nat} {a : Nat} : ptrIn S (some a) = true ↔ a ∈ S := by
  simp [ptrIn]

theorem ptrIn_ne {S : List Nat} {p : Option Nat} {x : Nat} (hp : ptrIn S p = true)
    (hx : x ∉ S) : p ≠ some x := by
  rintro rfl
  exact hx (ptrIn_some.1 hp)

theorem ptrIn_next_of_load {h : List Block} {S : List Nat} {p : Option Nat} {t : task_info}
    (hc : Closed h S) (hp : ptrIn S p = true) (hl : load h p = some t) :
    ptrIn S t.next = true := by
  cases p with
  | none => simp [load] at hl
  | some a =>
    obtain ⟨b, hb, hbt⟩ := load_eq_some_iff.1 hl
    have := hc a (ptrIn_some.1 hp)
    rw [nextOf_eq hb, hbt] at this
    exact this

/-- The assignment `p->next = v` with `p` and `v` in `S` writes inside `S` and keeps `S`
closed. -/
theorem storeNext_frame {h h2 : List Block} {S : List Nat} {p v : Option Nat}
    (hst : storeNext h p v = some h2) (hc : Closed h S) (hp : ptrIn S p = true)
    (hv : ptrIn S v = true) : (∀ x, x ∉ S → h2[x]? = h[x]?) ∧ Closed h2 S := by
  refine ⟨fun x hx => modify_other hst (ptrIn_ne hp hx), ?_⟩
  cases p with
  | none => simp [storeNext, modify] at hst
  | some a =>
    cases hb : h[a]? with
    | none => simp [storeNext, modify, hb] at hst
    | some b =>
      rw [storeNext_some v hb] at hst
      cases hst
      intro q hq
      by_cases hqa : q = a
      · subst hqa
        rw [nextOf_eq (List.getElem?_set_self (lt_of_getElem?_eq_some hb))]
        exact hv
      · have : nextOf (h.set a { b with val := { b.val with next := v } }) q = nextOf h q := by
          unfold nextOf
          rw [List.getElem?_set_ne (Ne.symm hqa)]
        rw [this]
        exact hc q hq

/-- The call `kfree(p)` with `p` in `S` writes inside `S` and keeps `S` closed. -/
theorem kfree_frame {h h2 : List Block} {S : List Nat} {p : Option Nat}
    (hk : kfree h p = some h2) (hc : Closed h S) (hp : ptrIn S p = true) :
    (∀ x, x ∉ S → h2[x]? = h[x]?) ∧ Closed h2 S := by
  cases p with
  | none =>
    simp only [kfree, Option.some.injEq] at hk
    subst hk
    exact ⟨fun _ _ => rfl, hc⟩
  | some a =>
    cases hb : h[a]? with
    | none => simp [kfree, hb] at hk
    | some b =>
      rw [kfree_some hb] at hk
      cases hk
      refine ⟨?_, ?_⟩
      · intro x hx
        exact List.getElem?_set_ne (fun hax => hx (by rw [← hax]; exact ptrIn_some.1 hp))
      · intro q hq
        have : nextOf (h.set a { b with freed := true }) q = nextOf h q := by
          unfold nextOf
          by_cases hqa : q = a
          · subst hqa
            rw [List.getElem?_set_self (lt_of_getElem?_eq_some hb), hb]
          · rw [List.getElem?_set_ne (Ne.symm hqa)]
        rw [this]
        exact hc q hq

theorem deleteLoop_frame (pid : Int) (head : Option Nat) (S : List Nat) :
    ∀ (fuel : Nat) (h : List Block) (prev del : Option Nat) (h2 : List Block)
      (oc : Option (Option Nat)),
      deleteLoop pid head fuel h prev del = some (h2, oc) →
      Closed h S → ptrIn S prev = true → ptrIn S del = true →
      ∀ x, x ∉ S → h2[x]? = h[x]? := by
  intro fuel
  induction fuel with
  | zero => intro h prev del h2 oc hl; simp [deleteLoop] at hl
  | succ n ih =>
    intro h prev del h2 oc hl hc hprev hdel
    unfold deleteLoop at hl
    split at hl
    · simp only [Option.some.injEq, Prod.mk.injEq] at hl
      obtain ⟨rfl, rfl⟩ := hl
      exact fun _ _ => rfl
    · split at hl
      · cases hl
      · rename_i d hd
        have hdn : ptrIn S d.next = true := ptrIn_next_of_load hc hdel hd
        split at hl
        · split at hl
          · cases hl
          · rename_i h1 hst
            obtain ⟨hf1, hc1⟩ := storeNext_frame hst hc hprev hdn
            split at hl
            · cases hl
            · rename_i h3 hkf
              obtain ⟨hf2, _⟩ := kfree_frame hkf hc1 hdel
              split at hl
              · cases hl
              · simp only [Option.some.injEq, Prod.mk.injEq] at hl
                obtain ⟨rfl, rfl⟩ := hl
                intro x hx
                rw [hf2 x hx, hf1 x hx]
        · split at hl
          · cases hl
          · rename_i pr hpr
            exact ih h pr.next d.next h2 oc hl hc (ptrIn_next_of_load hc hprev hpr) hdn

theorem deleteHead_frame {h h2 : List Block} {c c2 : container_info} {prev : Option Nat}
    {S : List Nat} (hd : deleteHead h c prev = some (h2, c2)) (hc : Closed h S)
    (hprev : ptrIn S prev = true) (hfoot : ptrIn S c.foot = true) :
    (∀ x, x ∉ S → h2[x]? = h[x]?) ∧ Closed h2 S ∧ ptrIn S c2.head = true := by
  unfold deleteHead at hd
  split at hd
  · cases hd
  · rename_i pr0 hpr0
    have hn0 : ptrIn S pr0.next = true := ptrIn_next_of_load hc hprev hpr0
    dsimp only at hd
    split at hd
    · cases hd
    · rename_i h1 hst
      obtain ⟨hf1, hc1⟩ := storeNext_frame hst hc hfoot hn0
      split at hd
      · cases hd
      · split at hd
        · cases hd
        · rename_i h3 hkf
          obtain ⟨hf2, hc2⟩ := kfree_frame hkf hc1 hprev
          simp only [Option.some.injEq, Prod.mk.injEq] at hd
          obtain ⟨rfl, rfl⟩ := hd
          exact ⟨fun x hx => by rw [hf2 x hx, hf1 x hx], hc2, hn0⟩

/-- Leave writes only to blocks reached from `head` and `foot` of its entry by `next`
links. -/
theorem delete_frame {k : KState} {current : task_struct} {cmd : processor_container_cmd}
    {r : Result} (h : processor_container_delete k current cmd = some r) :
    ∃ i c, slot (toLongLong cmd.cid) = some i ∧ k.containers i = some c ∧
      ∀ S, ptrIn S c.head = true → ptrIn S c.foot = true → Closed k.heap S →
        ∀ x, x ∉ S → r.state.heap[x]? = k.heap[x]? := by
  obtain ⟨i, c, hi, hc, hcases⟩ := delete_cases h
  refine ⟨i, c, hi, hc, ?_⟩
  intro S hhead hfoot hcl
  rcases hcases with ⟨_, rfl⟩ | ⟨hd, h1, _, _, hkf, rfl⟩ |
    ⟨hd, h1, c1, h2, ocur, w, hld, _, hbr, hloop, _, rfl⟩
  · exact fun _ _ => rfl
  · exact (kfree_frame hkf hcl hhead).1
  · have hbranch : (∀ x, x ∉ S → h1[x]? = k.heap[x]?) ∧ Closed h1 S ∧
        ptrIn S c1.head = true := by
      split at hbr
      · exact deleteHead_frame hbr hcl hhead hfoot
      · simp only [Option.some.injEq, Prod.mk.injEq] at hbr
        obtain ⟨rfl, rfl⟩ := hbr
        exact ⟨fun _ _ => rfl, hcl, hhead⟩
    obtain ⟨hf1, hc1, _⟩ := hbranch
    have hdel : ptrIn S hd.next = true := ptrIn_next_of_load hcl hhead hld
    have hf2 := deleteLoop_frame current.pid c1.head S _ h1 c.head hd.next h2 ocur hloop hc1
      hhead hdel
    intro x hx
    show h2[x]? = k.heap[x]?
    rw [hf2 x hx, hf1 x hx]

/-- Join writes only to the block handed out and to the block that `foot` of its entry
designates. -/
theorem create_frame {alloc : List Block → Nat} {k : KState} {current : task_struct}
    {cmd : processor_container_cmd} {r : Result}
    (h : processor_container_create alloc k current cmd = some r) :
    ∃ i, slot (toLongLong cmd.cid) = some i ∧
      ∀ x, isLive k.heap x = true → (∀ c, k.containers i = some c → c.foot ≠ some x) →
        r.state.heap[x]? = k.heap[x]? := by
  have hnl := kmalloc_not_live alloc k.heap
  have hother := fun x (hx : x ≠ (kmalloc alloc k.heap).1) => kmalloc_other alloc k.heap hx
  unfold processor_container_create at h
  dsimp only at h
  generalize (kmalloc alloc k.heap).1 = a at *
  generalize (kmalloc alloc k.heap).2 = h0 at *
  have hxa : ∀ x, isLive k.heap x = true → some a ≠ some x := by
    intro x hx hax
    cases hax
    rw [hnl] at hx
    cases hx
  split at h
  · cases h
  · rename_i i hi
    refine ⟨i, hi, ?_⟩
    intro x hx hfoot
    have hne := hxa x hx
    split at h
    · split at h
      · cases h
      · rename_i h1 hm1
        split at h
        · cases h
        · rename_i h2 hm2
          simp only [Option.some.injEq] at h
          subst h
          show h2[x]? = k.heap[x]?
          rw [modify_other hm2 hne, modify_other hm1 hne]
          exact hother x (fun hxa2 => hne (by rw [hxa2]))
    · rename_i c hc
      split at h
      · cases h
      · rename_i h1 hm1
        split at h
        · cases h
        · rename_i h2 hm2
          split at h
          · cases h
          · rename_i h3 hm3
            simp only [Option.some.injEq] at h
            subst h
            show h3[x]? = k.heap[x]?
            rw [modify_other hm3 hne, modify_other hm2 (hfoot c hc), modify_other hm1 hne]
            exact hother x (fun hxa2 => hne (by rw [hxa2]))

theorem links_next_mem {h : List Block} {e : Nat} {ps : List Nat} (hl : links h e ps) :
    ∀ a ∈ ps, ∃ q, nextOf h a = some q ∧ (q ∈ ps ∨ q = e) := by
  induction ps with
  | nil => intro a ha; cases ha
  | cons p rest ih =>
    obtain ⟨_, hn, hrest⟩ := hl
    intro a ha
    rcases List.mem_cons.1 ha with rfl | hin
    · refine ⟨_, hn, ?_⟩
      cases rest with
      | nil => exact Or.inr rfl
      | cons q rest => exact Or.inl (by simp)
    · obtain ⟨q, hq, hmem⟩ := ih hrest a hin
      refine ⟨q, hq, ?_⟩
      rcases hmem with hmem | hmem
      · exact Or.inl (List.mem_cons_of_mem _ hmem)
      · exact Or.inr hmem

/-- The members of a well-formed ring contain `head` and `foot` and are closed under
`next`. -/
theorem isRing_closed {h : List Block} {c : container_info} {ps : List Nat}
    (hr : isRing h c ps) :
    ptrIn ps c.head = true ∧ ptrIn ps c.foot = true ∧ Closed h ps := by
  obtain ⟨⟨hne, _, hhead, hl⟩, hfoot⟩ := hr
  refine ⟨?_, ?_, ?_⟩
  · rw [hhead, head?_eq_some_headD hne, ptrIn_some]
    cases ps with
    | nil => exact absurd rfl hne
    | cons a rest => simp
  · rw [hfoot]
    rcases List.eq_nil_or_concat ps with hnil | ⟨l, f, hps⟩
    · exact absurd hnil hne
    · rw [List.concat_eq_append] at hps
      subst hps
      rw [List.getLast?_concat, ptrIn_some]
      simp
  · intro a ha
    obtain ⟨q, hq, hmem⟩ := links_next_mem hl a ha
    rw [hq, ptrIn_some]
    rcases hmem with hmem | rfl
    · exact hmem
    · cases ps with
      | nil => exact absurd rfl hne
      | cons a rest => simp


/-- C19 on the code. For every state and every allocator:
a completed Join whose payload selects slot `i` leaves head, foot and cur of every other table
entry as they were, and writes to no block that was in use, the one that `foot` of entry `i`
designates apart;
a completed Leave whose payload selects slot `i` leaves head, foot and cur of every other
table entry as they were, and writes to no block outside a set of addresses that holds `head`
and `foot` of entry `i` and is closed under `next`; the members of a well-formed ring are
such a set;
a completed Yield leaves the whole heap as it was (every member record and `next` link) and
every table entry other than the one the scan selects, of which it keeps head and foot.
The member records of another group are not left alone by Join. Thread A joins group 0,
leaves it as its sole member, which keeps `foot` of entry 0 at the freed record, and joins
group 1, where the allocator hands the freed block out again: the ring of group 1 is the
record of A at address 0, whose `next` field is 0. Now thread C joins group 0: the call
stores through `foot` of entry 0 (line 251) and the `next` field of the record of A in
group 1 becomes 1, the address of the record of C, so that the traversal of group 1 is no
longer a cycle. -/
theorem join_rewrites_record_of_other_group :
    (∀ (alloc : List Block → Nat) k current cmd r,
      processor_container_create alloc k current cmd = some r →
      ∃ i, slot (toLongLong cmd.cid) = some i ∧
        (∀ j, j ≠ i → r.state.containers j = k.containers j) ∧
        (∀ x, isLive k.heap x = true → (∀ c, k.containers i = some c → c.foot ≠ some x) →
          r.state.heap[x]? = k.heap[x]?)) ∧
    (∀ k current cmd r, processor_container_delete k current cmd = some r →
      ∃ i c, slot (toLongLong cmd.cid) = some i ∧ k.containers i = some c ∧
        (∀ j, j ≠ i → r.state.containers j = k.containers j) ∧
        (∀ S, ptrIn S c.head = true → ptrIn S c.foot = true → Closed k.heap S →
          ∀ x, x ∉ S → r.state.heap[x]? = k.heap[x]?)) ∧
    (∀ (h : List Block) (c : container_info) (ps : List Nat), isRing h c ps →
      ptrIn ps c.head = true ∧ ptrIn ps c.foot = true ∧ Closed h ps) ∧
    (∀ k current cmd r, processor_container_switch k current cmd = some r →
      r.state.heap = k.heap ∧
      ∃ i c c2, scan k current.pid NCONT 0 = some i ∧ k.containers i = some c ∧
        r.state.containers i = some c2 ∧ c2.head = c.head ∧ c2.foot = c.foot ∧
        ∀ j, j ≠ i → r.state.containers j = k.containers j) ∧
    (run allocReuse init reuseFrameCalls = some stReuseFrame ∧
      stReuseFrame.containers 0 = some ⟨none, some 0, some 0⟩ ∧
      stReuseFrame.containers 1 = some ⟨some 0, some 0, some 0⟩ ∧
      isRing stReuseFrame.heap ⟨some 0, some 0, some 0⟩ [0] ∧
      load stReuseFrame.heap (some 0) = some ⟨1, threadA.pid, some 0, threadA⟩ ∧
      ∃ r, processor_container_create allocReuse stReuseFrame threadC ⟨0⟩ = some r ∧
        r.state.containers 1 = some ⟨some 0, some 0, some 0⟩ ∧
        load r.state.heap (some 0) = some ⟨1, threadA.pid, some 1, threadA⟩ ∧
        load r.state.heap (some 1) = some ⟨0, threadC.pid, none, threadC⟩ ∧
        ¬ isCycle r.state.heap (some 0) [0]) := by
  refine ⟨?_, ?_, fun h c ps hr => isRing_closed hr, ?_,
    rfl, by decide, by decide, by decide, by decide, _, rfl, by decide, by decide, by decide,
    by decide⟩
  · intro alloc k current cmd r h
    obtain ⟨i, hi, _, hframe, _⟩ := create_shape h
    obtain ⟨i2, hi2, hheap⟩ := create_frame h
    rw [hi] at hi2
    cases hi2
    exact ⟨i, hi, hframe, hheap⟩
  · intro k current cmd r h
    obtain ⟨i, c, hi, hc, _, hframe, _⟩ := delete_shape h
    obtain ⟨i2, c2, hi2, hc2, hheap⟩ := delete_frame h
    rw [hi] at hi2
    cases hi2
    rw [hc] at hc2
    cases hc2
    exact ⟨i, c, hi, hc, hframe, hheap⟩
  · intro k current cmd r h
    obtain ⟨i, c, t, hscan, hc, _, _, hheap, hframe, hcase⟩ := switch_shape h
    refine ⟨hheap, i, c, ?_⟩
    rcases hcase with ⟨_, hst, _⟩ | ⟨_, w, _, hci, _⟩
    · exact ⟨c, hscan, hc, by rw [hst]; exact hc, rfl, rfl, hframe⟩
    · exact ⟨_, hscan, hc, hci, rfl, rfl, hframe⟩

end ProcessorContainer
